import Mathlib

/-
Shallow embedding of scikit_tt/solvers/sle.py: the ALS and MALS sweep
solvers for linear systems in tensor-train (TT) format.

Dense-array payloads are abstracted by a type parameter together with an
operation record `Ops`: the numpy/scipy dense primitives (tensordot,
solve, lu_factor/lu_solve, qr, rq, svd, slicing) are external library
calls whose numeric content the verified claims do not inspect.  The one
numeric output that steers control flow - the list of singular values
returned by `la.svd`, which drives MALS rank truncation - is exposed as a
list of rationals (`svdS`).  The shape contracts of the economy QR/RQ
factorizations (scipy `mode='economic'`: the orthonormal factor of an
m-by-n input has min(m,n) columns resp. rows) are the documented contracts
of those external primitives and are inlined where the Python code reads
`q.shape`.  Orders, shapes, ranks, stacks and all control flow are
modelled concretely after the source.
-/

namespace ScikitTT

/-- Free symbolic payload for dense arrays: one constructor per external
array primitive used by sle.py, so concrete runs record the exact data
flow of the Python code. `inp tag i` stands for the i-th core of an input
tensor (tag 0 = operator, 1 = right-hand side, 2 = initial guess). -/
inductive D where
  | uninit : D
  | one3 : D
  | one2 : D
  | inp : ℕ → ℕ → D
  | tdot : D → D → List (ℕ × ℕ) → D
  | slice0 : D → D
  | transposeReshape : D → List ℕ → List ℕ → D
  | reshapeM : D → List ℕ → D
  | npsolve : D → D → D
  | lasolve : D → D → D
  | luFactor : D → D
  | luSolve : D → D → D
  | qrQ : D → D
  | rqQ : D → D
  | svdU : D → D
  | svdV : D → D
  | selCols : D → List ℕ → D
  | selRows : D → List ℕ → D
  | takeCols : D → ℕ → D
  | takeRows : D → ℕ → D
  | mulDiag : D → List ℚ → D
  deriving DecidableEq

/-- One TT core: its ndarray shape (list of axis sizes) and its payload. -/
structure Core (α : Type) where
  shape : List ℕ
  data : α
  deriving DecidableEq

/-- A tensor in TT format, as exposed by the external TT container class:
`order`, `cores`, `ranks`, `row_dims`, `col_dims` (spec section 6). -/
structure TT (α : Type) where
  order : ℕ
  cores : List (Core α)
  ranks : List ℕ
  rowDims : List ℕ
  colDims : List ℕ
  deriving DecidableEq

/-- Record of the external dense-array primitives consumed by sle.py
(numpy tensordot/solve/reshape, scipy solve/lu/qr/rq/svd, ndarray
slicing).  `svdS` is the list of singular values returned by `la.svd`,
the only numeric output inspected by the solver's control flow. -/
structure Ops (α : Type) where
  uninit : α
  one3 : α
  one2 : α
  tdot : α → α → List (ℕ × ℕ) → α
  slice0 : α → α
  transposeReshape : α → List ℕ → List ℕ → α
  reshapeM : α → List ℕ → α
  npsolve : α → α → α
  lasolve : α → α → α
  luFactor : α → α
  luSolve : α → α → α
  qrQ : α → α
  rqQ : α → α
  svdU : α → α
  svdV : α → α
  svdS : α → List ℚ
  selCols : α → List ℕ → α
  selRows : α → List ℕ → α
  takeCols : α → ℕ → α
  takeRows : α → ℕ → α
  mulDiag : α → List ℚ → α

variable {α : Type}

/-- Default core used for total list indexing (never reached on
shape-consistent inputs). -/
def defCore (O : Ops α) : Core α := ⟨[], O.uninit⟩

/-- The free instance of the primitives over the symbolic payload `D`.
The singular-value oracle returns the fixed list [1]; any function would
do for the structural claims checked on this instance. -/
def DOps : Ops D where
  uninit := D.uninit
  one3 := D.one3
  one2 := D.one2
  tdot := D.tdot
  slice0 := D.slice0
  transposeReshape := D.transposeReshape
  reshapeM := D.reshapeM
  npsolve := D.npsolve
  lasolve := D.lasolve
  luFactor := D.luFactor
  luSolve := D.luSolve
  qrQ := D.qrQ
  rqQ := D.rqQ
  svdU := D.svdU
  svdV := D.svdV
  svdS := fun _ => [1]
  selCols := D.selCols
  selRows := D.selRows
  takeCols := D.takeCols
  takeRows := D.takeRows
  mulDiag := D.mulDiag

/-- Trivial instance over Unit (used to realize the hypothesis that the
two local-solver strategies compute the same values). -/
def OUnit : Ops Unit where
  uninit := ()
  one3 := ()
  one2 := ()
  tdot := fun _ _ _ => ()
  slice0 := fun _ => ()
  transposeReshape := fun _ _ _ => ()
  reshapeM := fun _ _ => ()
  npsolve := fun _ _ => ()
  lasolve := fun _ _ => ()
  luFactor := fun _ => ()
  luSolve := fun _ _ => ()
  qrQ := fun _ => ()
  rqQ := fun _ => ()
  svdU := fun _ => ()
  svdV := fun _ => ()
  svdS := fun _ => [1]
  selCols := fun _ _ => ()
  selRows := fun _ _ => ()
  takeCols := fun _ _ => ()
  takeRows := fun _ _ => ()
  mulDiag := fun _ _ => ()

/-- sle.py lines 178-202, construct_stack_left_op: slot 0 is the unit,
otherwise contract the previous slot with solution core i-1 (column mode
sliced away), the operator core i-1, and solution core i-1 again. -/
def constructStackLeftOp (O : Ops α) (i : ℕ) (stackLeftOp : List α)
    (operator solution : TT α) : List α :=
  if i = 0 then
    stackLeftOp.set i O.one3
  else
    let t1 := O.tdot (stackLeftOp.getD (i - 1) O.uninit)
      (O.slice0 (solution.cores.getD (i - 1) (defCore O)).data) [(0, 0)]
    let t2 := O.tdot t1 (operator.cores.getD (i - 1) (defCore O)).data [(0, 0), (2, 2)]
    let t3 := O.tdot t2 (O.slice0 (solution.cores.getD (i - 1) (defCore O)).data) [(0, 0), (2, 1)]
    stackLeftOp.set i t3

/-- sle.py lines 205-228, construct_stack_left_rhs. -/
def constructStackLeftRhs (O : Ops α) (i : ℕ) (stackLeftRhs : List α)
    (rightHandSide solution : TT α) : List α :=
  if i = 0 then
    stackLeftRhs.set i O.one2
  else
    let t1 := O.tdot (stackLeftRhs.getD (i - 1) O.uninit)
      (O.slice0 (rightHandSide.cores.getD (i - 1) (defCore O)).data) [(0, 0)]
    let t2 := O.tdot t1 (O.slice0 (solution.cores.getD (i - 1) (defCore O)).data) [(0, 0), (1, 1)]
    stackLeftRhs.set i t2

/-- sle.py lines 231-256, construct_stack_right_op: slot order-1 is the
unit, otherwise contract solution core i+1, operator core i+1 and
solution core i+1 with the previous slot. -/
def constructStackRightOp (O : Ops α) (i : ℕ) (stackRightOp : List α)
    (operator solution : TT α) : List α :=
  if i = operator.order - 1 then
    stackRightOp.set i O.one3
  else
    let t1 := O.tdot (O.slice0 (solution.cores.getD (i + 1) (defCore O)).data)
      (stackRightOp.getD (i + 1) O.uninit) [(2, 2)]
    let t2 := O.tdot (operator.cores.getD (i + 1) (defCore O)).data t1 [(1, 1), (3, 3)]
    let t3 := O.tdot (O.slice0 (solution.cores.getD (i + 1) (defCore O)).data) t2 [(1, 1), (2, 3)]
    stackRightOp.set i t3

/-- sle.py lines 259-284, construct_stack_right_rhs. -/
def constructStackRightRhs (O : Ops α) (i : ℕ) (stackRightRhs : List α)
    (rightHandSide solution : TT α) : List α :=
  if i = rightHandSide.order - 1 then
    stackRightRhs.set i O.one2
  else
    let t1 := O.tdot (O.slice0 (solution.cores.getD (i + 1) (defCore O)).data)
      (stackRightRhs.getD (i + 1) O.uninit) [(2, 1)]
    let t2 := O.tdot (O.slice0 (rightHandSide.cores.getD (i + 1) (defCore O)).data) t1 [(1, 1), (2, 2)]
    stackRightRhs.set i t2

/-- sle.py lines 287-318, construct_micro_matrix_als: contract left stack,
operator core i and right stack, then transpose to [1,2,5,0,3,4] and
reshape to the (ranks[i]*row_dims[i]*ranks[i+1]) square-ish matrix. -/
def constructMicroMatrixAls (O : Ops α) (i : ℕ) (stackLeftOp stackRightOp : List α)
    (operator solution : TT α) : Core α :=
  let t1 := O.tdot (stackLeftOp.getD i O.uninit) (operator.cores.getD i (defCore O)).data [(1, 0)]
  let t2 := O.tdot t1 (stackRightOp.getD i O.uninit) [(4, 1)]
  let rdim := solution.ranks.getD i 0 * operator.rowDims.getD i 0 * solution.ranks.getD (i + 1) 0
  let cdim := solution.ranks.getD i 0 * operator.colDims.getD i 0 * solution.ranks.getD (i + 1) 0
  ⟨[rdim, cdim], O.transposeReshape t2 [1, 2, 5, 0, 3, 4] [rdim, cdim]⟩

/-- sle.py lines 321-353, construct_micro_matrix_mals (two operator cores,
transpose [1,2,4,7,0,3,5,6]). -/
def constructMicroMatrixMals (O : Ops α) (i : ℕ) (stackLeftOp stackRightOp : List α)
    (operator solution : TT α) : Core α :=
  let t1 := O.tdot (stackLeftOp.getD i O.uninit) (operator.cores.getD i (defCore O)).data [(1, 0)]
  let t2 := O.tdot t1 (operator.cores.getD (i + 1) (defCore O)).data [(4, 0)]
  let t3 := O.tdot t2 (stackRightOp.getD (i + 1) O.uninit) [(6, 1)]
  let rdim := solution.ranks.getD i 0 * operator.rowDims.getD i 0 *
    operator.rowDims.getD (i + 1) 0 * solution.ranks.getD (i + 2) 0
  let cdim := solution.ranks.getD i 0 * operator.colDims.getD i 0 *
    operator.colDims.getD (i + 1) 0 * solution.ranks.getD (i + 2) 0
  ⟨[rdim, cdim], O.transposeReshape t3 [1, 2, 4, 7, 0, 3, 5, 6] [rdim, cdim]⟩

/-- sle.py lines 356-385, construct_micro_rhs_als: contract left rhs
stack, rhs core i and right rhs stack, reshape to a column. -/
def constructMicroRhsAls (O : Ops α) (i : ℕ) (stackLeftRhs stackRightRhs : List α)
    (rightHandSide solution : TT α) : Core α :=
  let t1 := O.tdot (stackLeftRhs.getD i O.uninit)
    (O.slice0 (rightHandSide.cores.getD i (defCore O)).data) [(0, 0)]
  let t2 := O.tdot t1 (stackRightRhs.getD i O.uninit) [(2, 0)]
  let n := solution.ranks.getD i 0 * rightHandSide.rowDims.getD i 0 * solution.ranks.getD (i + 1) 0
  ⟨[n, 1], O.reshapeM t2 [n, 1]⟩

/-- sle.py lines 388-419, construct_micro_rhs_mals. -/
def constructMicroRhsMals (O : Ops α) (i : ℕ) (stackLeftRhs stackRightRhs : List α)
    (rightHandSide solution : TT α) : Core α :=
  let t1 := O.tdot (stackLeftRhs.getD i O.uninit)
    (O.slice0 (rightHandSide.cores.getD i (defCore O)).data) [(0, 0)]
  let t2 := O.tdot t1 (O.slice0 (rightHandSide.cores.getD (i + 1) (defCore O)).data) [(2, 0)]
  let t3 := O.tdot t2 (stackRightRhs.getD (i + 1) O.uninit) [(3, 0)]
  let n := solution.ranks.getD i 0 * rightHandSide.rowDims.getD i 0 *
    rightHandSide.rowDims.getD (i + 1) 0 * solution.ranks.getD (i + 2) 0
  ⟨[n, 1], O.reshapeM t3 [n, 1]⟩

/-- Index set kept by the relative-threshold truncation, sle.py lines
538/561: `np.where(s / s[0] > threshold)[0]`. -/
def svdFilterIdx (threshold : ℚ) (s : List ℚ) : List ℕ :=
  (List.range s.length).filter (fun j => s.getD j 0 / s.headD 0 > threshold)

/-- The singular-value list after MALS rank reduction, sle.py lines
536-543 (and identically 559-568): relative-threshold filtering when the
threshold is nonzero, then the absolute cap `s[:min(len(s), max_rank)]`
when max_rank is finite (`none` models the np.infty sentinel). -/
def truncS (threshold : ℚ) (maxRank : Option ℕ) (s : List ℚ) : List ℚ :=
  let s1 := if threshold ≠ 0 then (svdFilterIdx threshold s).map (fun j => s.getD j 0) else s
  match maxRank with
  | some r => s1.take (min s1.length r)
  | none => s1

/-- The left singular-vector factor after MALS rank reduction
(`u = u[:, indices]`, then `u = u[:, :min(u.shape[1], max_rank)]`;
u has one column per singular value, so its column count is the length
of the filtered singular-value list). -/
def truncU (O : Ops α) (threshold : ℚ) (maxRank : Option ℕ) (u : α) (s : List ℚ) : α :=
  let s1 := if threshold ≠ 0 then (svdFilterIdx threshold s).map (fun j => s.getD j 0) else s
  let u1 := if threshold ≠ 0 then O.selCols u (svdFilterIdx threshold s) else u
  match maxRank with
  | some r => O.takeCols u1 (min s1.length r)
  | none => u1

/-- The right singular-vector factor after MALS rank reduction
(`v = v[indices, :]`, then `v = v[:min(v.shape[0], max_rank), :]`). -/
def truncV (O : Ops α) (threshold : ℚ) (maxRank : Option ℕ) (v : α) (s : List ℚ) : α :=
  let s1 := if threshold ≠ 0 then (svdFilterIdx threshold s).map (fun j => s.getD j 0) else s
  let v1 := if threshold ≠ 0 then O.selRows v (svdFilterIdx threshold s) else v
  match maxRank with
  | some r => O.takeRows v1 (min s1.length r)
  | none => v1

/-- sle.py lines 444-451: the local-solve dispatch of update_core_als.
Two independent `if` statements; an unrecognized solver string leaves the
previous core contents in place (there is no else branch and no error). -/
def dispatchAls (O : Ops α) (solver : String) (microOp microRhs : Core α)
    (old : Core α) : Core α :=
  let c1 := if solver = "solve" then
    Core.mk microRhs.shape (O.npsolve microOp.data microRhs.data) else old
  if solver = "lu" then
    Core.mk microRhs.shape (O.luSolve (O.luFactor microOp.data) microRhs.data) else c1

/-- sle.py lines 516-523: the local-solve dispatch of update_core_mals
(the direct branch calls scipy `la.solve` rather than numpy solve). -/
def dispatchMals (O : Ops α) (solver : String) (microOp microRhs : Core α)
    (old : Core α) : Core α :=
  let c1 := if solver = "solve" then
    Core.mk microRhs.shape (O.lasolve microOp.data microRhs.data) else old
  if solver = "lu" then
    Core.mk microRhs.shape (O.luSolve (O.luFactor microOp.data) microRhs.data) else c1

/-- sle.py lines 422-487, update_core_als.  Forward: economy QR of the
solved core reshaped to (ranks[i]*row_dims[i], ranks[i+1]); the column
count of the economy orthonormal factor is min of the two dimensions
(scipy `mode='economic'` contract), stored into ranks[i+1].  Backward at
i > 0: economy RQ with the row count stored into ranks[i]; at i = 0 the
raw solved values are only reshaped to 4 axes. -/
def updateCoreAls (O : Ops α) (i : ℕ) (microOp microRhs : Core α)
    (solution : TT α) (solver direction : String) : TT α :=
  let c := dispatchAls O solver microOp microRhs (solution.cores.getD i (defCore O))
  let sol : TT α := { solution with cores := solution.cores.set i c }
  let sol : TT α :=
    if direction = "forward" then
      let mdim := sol.ranks.getD i 0 * sol.rowDims.getD i 0
      let ndim := sol.ranks.getD (i + 1) 0
      let q := O.qrQ (O.reshapeM c.data [mdim, ndim])
      let rks := sol.ranks.set (i + 1) (min mdim ndim)
      let nc : Core α := ⟨[rks.getD i 0, sol.rowDims.getD i 0, 1, rks.getD (i + 1) 0], q⟩
      { sol with ranks := rks, cores := sol.cores.set i nc }
    else sol
  if direction = "backward" then
    if 0 < i then
      let mdim := sol.ranks.getD i 0
      let ndim := sol.rowDims.getD i 0 * sol.ranks.getD (i + 1) 0
      let q := O.rqQ (O.reshapeM c.data [mdim, ndim])
      let rks := sol.ranks.set i (min mdim ndim)
      let nc : Core α := ⟨[rks.getD i 0, sol.rowDims.getD i 0, 1, rks.getD (i + 1) 0], q⟩
      { sol with ranks := rks, cores := sol.cores.set i nc }
    else
      let nc : Core α :=
        ⟨[sol.ranks.getD i 0, sol.rowDims.getD i 0, 1, sol.ranks.getD (i + 1) 0], c.data⟩
      { sol with cores := sol.cores.set i nc }
  else sol

/-- sle.py lines 490-579, update_core_mals.  Both directions take the SVD
of the solved block reshaped to (ranks[i]*row_dims[i],
row_dims[i+1]*ranks[i+2]) and truncate.  Forward stores the left factor
as core i; backward stores the right factor as core i+1 and, at i = 0,
additionally stores u @ diag(s) as core 0. -/
def updateCoreMals (O : Ops α) (i : ℕ) (microOp microRhs : Core α)
    (solution : TT α) (solver direction : String)
    (threshold : ℚ) (maxRank : Option ℕ) : TT α :=
  let c := dispatchMals O solver microOp microRhs (solution.cores.getD i (defCore O))
  let sol : TT α := { solution with cores := solution.cores.set i c }
  let mdim := sol.ranks.getD i 0 * sol.rowDims.getD i 0
  let ndim := sol.rowDims.getD (i + 1) 0 * sol.ranks.getD (i + 2) 0
  let a := O.reshapeM c.data [mdim, ndim]
  let sol : TT α :=
    if direction = "forward" then
      let u := truncU O threshold maxRank (O.svdU a) (O.svdS a)
      let s := truncS threshold maxRank (O.svdS a)
      let rks := sol.ranks.set (i + 1) s.length
      let nc : Core α := ⟨[rks.getD i 0, sol.rowDims.getD i 0, 1, rks.getD (i + 1) 0], u⟩
      { sol with ranks := rks, cores := sol.cores.set i nc }
    else sol
  if direction = "backward" then
    let u := truncU O threshold maxRank (O.svdU a) (O.svdS a)
    let s := truncS threshold maxRank (O.svdS a)
    let v := truncV O threshold maxRank (O.svdV a) (O.svdS a)
    let rks := sol.ranks.set (i + 1) s.length
    let vc : Core α :=
      ⟨[rks.getD (i + 1) 0, sol.rowDims.getD (i + 1) 0, 1, rks.getD (i + 2) 0], v⟩
    let cs1 := sol.cores.set (i + 1) vc
    if i = 0 then
      let uc : Core α :=
        ⟨[rks.getD i 0, sol.rowDims.getD i 0, 1, rks.getD (i + 1) 0], O.mulDiag u s⟩
      { sol with ranks := rks, cores := cs1.set i uc }
    else { sol with ranks := rks, cores := cs1 }
  else sol

/-- State threaded through a sweep: the (exclusively owned) solution
tensor and the four stack arrays. -/
structure SweepSt (α : Type) where
  sol : TT α
  slo : List α
  slr : List α
  sro : List α
  srr : List α

/-- Bounded loop: `loopN f n` applies f n times (the
`while current_iteration <= repeats` loop of sle.py runs max(repeats,0)
sweeps). -/
def loopN (f : σ → σ) : ℕ → σ → σ
  | 0, s => s
  | n + 1, s => loopN f n (f s)

/-- One iteration of the right-stack initialization loops, sle.py lines
47-49 and 134-136. -/
def rightInitStep (O : Ops α) (operator rightHandSide : TT α)
    (st : SweepSt α) (i : ℕ) : SweepSt α :=
  let sro := constructStackRightOp O i st.sro operator st.sol
  let srr := constructStackRightRhs O i st.srr rightHandSide st.sol
  ⟨st.sol, st.slo, st.slr, sro, srr⟩

/-- One site of the ALS first half sweep, sle.py lines 58-70: always build
the left stacks; assemble and solve only when i < order - 1. -/
def alsForwardStep (O : Ops α) (operator rightHandSide : TT α) (solver : String)
    (st : SweepSt α) (i : ℕ) : SweepSt α :=
  let slo := constructStackLeftOp O i st.slo operator st.sol
  let slr := constructStackLeftRhs O i st.slr rightHandSide st.sol
  if i < operator.order - 1 then
    let mo := constructMicroMatrixAls O i slo st.sro operator st.sol
    let mr := constructMicroRhsAls O i slr st.srr rightHandSide st.sol
    ⟨updateCoreAls O i mo mr st.sol solver "forward", slo, slr, st.sro, st.srr⟩
  else
    ⟨st.sol, slo, slr, st.sro, st.srr⟩

/-- One site of the ALS second half sweep, sle.py lines 73-83: rebuild the
right stacks at i, assemble and solve at every site. -/
def alsBackwardStep (O : Ops α) (operator rightHandSide : TT α) (solver : String)
    (st : SweepSt α) (i : ℕ) : SweepSt α :=
  let sro := constructStackRightOp O i st.sro operator st.sol
  let srr := constructStackRightRhs O i st.srr rightHandSide st.sol
  let mo := constructMicroMatrixAls O i st.slo sro operator st.sol
  let mr := constructMicroRhsAls O i st.slr srr rightHandSide st.sol
  ⟨updateCoreAls O i mo mr st.sol solver "backward", st.slo, st.slr, sro, srr⟩

/-- One ALS repeat: forward half sweep over sites 0..order-1, backward
half sweep over sites order-1..0. -/
def alsSweep (O : Ops α) (operator rightHandSide : TT α) (solver : String)
    (st : SweepSt α) : SweepSt α :=
  let st1 := (List.range operator.order).foldl (alsForwardStep O operator rightHandSide solver) st
  ((List.range operator.order).reverse).foldl (alsBackwardStep O operator rightHandSide solver) st1

/-- sle.py lines 8-88, als: copy the initial guess, build the right
stacks from site order-1 down to 0, then run `repeats` sweeps. -/
def als (O : Ops α) (operator initialGuess rightHandSide : TT α)
    (repeats : ℤ) (solver : String) : TT α :=
  let solution := initialGuess
  let st0 : SweepSt α := ⟨solution,
    List.replicate operator.order O.uninit, List.replicate operator.order O.uninit,
    List.replicate operator.order O.uninit, List.replicate operator.order O.uninit⟩
  let st1 := ((List.range operator.order).reverse).foldl
    (rightInitStep O operator rightHandSide) st0
  (loopN (alsSweep O operator rightHandSide solver) repeats.toNat st1).sol

/-- One pair of the MALS first half sweep, sle.py lines 145-157: build the
left stacks at i; assemble and solve only when i < order - 2. -/
def malsForwardStep (O : Ops α) (operator rightHandSide : TT α) (solver : String)
    (threshold : ℚ) (maxRank : Option ℕ) (st : SweepSt α) (i : ℕ) : SweepSt α :=
  let slo := constructStackLeftOp O i st.slo operator st.sol
  let slr := constructStackLeftRhs O i st.slr rightHandSide st.sol
  if i < operator.order - 2 then
    let mo := constructMicroMatrixMals O i slo st.sro operator st.sol
    let mr := constructMicroRhsMals O i slr st.srr rightHandSide st.sol
    ⟨updateCoreMals O i mo mr st.sol solver "forward" threshold maxRank, slo, slr, st.sro, st.srr⟩
  else
    ⟨st.sol, slo, slr, st.sro, st.srr⟩

/-- One pair of the MALS second half sweep, sle.py lines 160-170: rebuild
the right stacks at slot i+1, assemble and solve at every pair. -/
def malsBackwardStep (O : Ops α) (operator rightHandSide : TT α) (solver : String)
    (threshold : ℚ) (maxRank : Option ℕ) (st : SweepSt α) (i : ℕ) : SweepSt α :=
  let sro := constructStackRightOp O (i + 1) st.sro operator st.sol
  let srr := constructStackRightRhs O (i + 1) st.srr rightHandSide st.sol
  let mo := constructMicroMatrixMals O i st.slo sro operator st.sol
  let mr := constructMicroRhsMals O i st.slr srr rightHandSide st.sol
  ⟨updateCoreMals O i mo mr st.sol solver "backward" threshold maxRank, st.slo, st.slr, sro, srr⟩

/-- The MALS backward half sweep over pairs order-2..0. -/
def malsBackwardSweep (O : Ops α) (operator rightHandSide : TT α) (solver : String)
    (threshold : ℚ) (maxRank : Option ℕ) (st : SweepSt α) : SweepSt α :=
  ((List.range (operator.order - 1)).reverse).foldl
    (malsBackwardStep O operator rightHandSide solver threshold maxRank) st

/-- One MALS repeat: forward half sweep over pairs 0..order-2, then the
backward half sweep. -/
def malsSweep (O : Ops α) (operator rightHandSide : TT α) (solver : String)
    (threshold : ℚ) (maxRank : Option ℕ) (st : SweepSt α) : SweepSt α :=
  let st1 := (List.range (operator.order - 1)).foldl
    (malsForwardStep O operator rightHandSide solver threshold maxRank) st
  malsBackwardSweep O operator rightHandSide solver threshold maxRank st1

/-- sle.py lines 91-175, mals: copy the initial guess, build the right
stacks from site order-1 down to 1, then run `repeats` sweeps. -/
def mals (O : Ops α) (operator initialGuess rightHandSide : TT α)
    (repeats : ℤ) (solver : String) (threshold : ℚ) (maxRank : Option ℕ) : TT α :=
  let solution := initialGuess
  let st0 : SweepSt α := ⟨solution,
    List.replicate operator.order O.uninit, List.replicate operator.order O.uninit,
    List.replicate operator.order O.uninit, List.replicate operator.order O.uninit⟩
  let st1 := (((List.range (operator.order - 1)).map (fun j => j + 1)).reverse).foldl
    (rightInitStep O operator rightHandSide) st0
  (loopN (malsSweep O operator rightHandSide solver threshold maxRank) repeats.toNat st1).sol

/-- Object store: TT objects live at numeric references; `next` is the
allocation frontier.  Used to express aliasing and in-place mutation. -/
structure Heap (α : Type) where
  next : ℕ
  mem : ℕ → TT α

/-- Write the (exclusively owned) solution object in place. -/
def writeSol (h : Heap α) (r : ℕ) (t : TT α) : Heap α :=
  ⟨h.next, fun x => if x = r then t else h.mem x⟩

/-- Heap-level sweep state: the heap plus the four transient stacks. -/
structure HSt (α : Type) where
  h : Heap α
  slo : List α
  slr : List α
  sro : List α
  srr : List α

/-- Heap-level right-stack initialization step (reads the three tensors
from the heap, writes nothing to the heap). -/
def rightInitStepH (O : Ops α) (opR rhsR solR : ℕ) (st : HSt α) (i : ℕ) : HSt α :=
  let operator := st.h.mem opR
  let rhs := st.h.mem rhsR
  let sol := st.h.mem solR
  ⟨st.h, st.slo, st.slr,
    constructStackRightOp O i st.sro operator sol,
    constructStackRightRhs O i st.srr rhs sol⟩

/-- Heap-level ALS forward step: the only heap effect is the in-place
update of the solution object at `solR` (sle.py mutates
`solution.cores[i]` / `solution.ranks`). -/
def alsForwardStepH (O : Ops α) (opR rhsR solR : ℕ) (solver : String)
    (st : HSt α) (i : ℕ) : HSt α :=
  let operator := st.h.mem opR
  let rhs := st.h.mem rhsR
  let sol := st.h.mem solR
  let slo := constructStackLeftOp O i st.slo operator sol
  let slr := constructStackLeftRhs O i st.slr rhs sol
  if i < operator.order - 1 then
    let mo := constructMicroMatrixAls O i slo st.sro operator sol
    let mr := constructMicroRhsAls O i slr st.srr rhs sol
    ⟨writeSol st.h solR (updateCoreAls O i mo mr sol solver "forward"), slo, slr, st.sro, st.srr⟩
  else
    ⟨st.h, slo, slr, st.sro, st.srr⟩

/-- Heap-level ALS backward step. -/
def alsBackwardStepH (O : Ops α) (opR rhsR solR : ℕ) (solver : String)
    (st : HSt α) (i : ℕ) : HSt α :=
  let operator := st.h.mem opR
  let rhs := st.h.mem rhsR
  let sol := st.h.mem solR
  let sro := constructStackRightOp O i st.sro operator sol
  let srr := constructStackRightRhs O i st.srr rhs sol
  let mo := constructMicroMatrixAls O i st.slo sro operator sol
  let mr := constructMicroRhsAls O i st.slr srr rhs sol
  ⟨writeSol st.h solR (updateCoreAls O i mo mr sol solver "backward"), st.slo, st.slr, sro, srr⟩

/-- One heap-level ALS repeat. -/
def alsSweepH (O : Ops α) (opR rhsR solR : ℕ) (solver : String) (st : HSt α) : HSt α :=
  let n := (st.h.mem opR).order
  let st1 := (List.range n).foldl (alsForwardStepH O opR rhsR solR solver) st
  ((List.range n).reverse).foldl (alsBackwardStepH O opR rhsR solR solver) st1

/-- Heap-level als: allocate the solution as a fresh copy of the initial
guess (`initial_guess.copy()`), then sweep, mutating only that object. -/
def alsH (O : Ops α) (h : Heap α) (opR gsR rhsR : ℕ) (repeats : ℤ)
    (solver : String) : ℕ × Heap α :=
  let solR := h.next
  let h1 : Heap α := ⟨h.next + 1, fun x => if x = solR then h.mem gsR else h.mem x⟩
  let n := (h1.mem opR).order
  let st0 : HSt α := ⟨h1,
    List.replicate n O.uninit, List.replicate n O.uninit,
    List.replicate n O.uninit, List.replicate n O.uninit⟩
  let st1 := ((List.range n).reverse).foldl (rightInitStepH O opR rhsR solR) st0
  (solR, (loopN (alsSweepH O opR rhsR solR solver) repeats.toNat st1).h)

/-- Heap-level MALS forward step. -/
def malsForwardStepH (O : Ops α) (opR rhsR solR : ℕ) (solver : String)
    (threshold : ℚ) (maxRank : Option ℕ) (st : HSt α) (i : ℕ) : HSt α :=
  let operator := st.h.mem opR
  let rhs := st.h.mem rhsR
  let sol := st.h.mem solR
  let slo := constructStackLeftOp O i st.slo operator sol
  let slr := constructStackLeftRhs O i st.slr rhs sol
  if i < operator.order - 2 then
    let mo := constructMicroMatrixMals O i slo st.sro operator sol
    let mr := constructMicroRhsMals O i slr st.srr rhs sol
    ⟨writeSol st.h solR (updateCoreMals O i mo mr sol solver "forward" threshold maxRank),
      slo, slr, st.sro, st.srr⟩
  else
    ⟨st.h, slo, slr, st.sro, st.srr⟩

/-- Heap-level MALS backward step. -/
def malsBackwardStepH (O : Ops α) (opR rhsR solR : ℕ) (solver : String)
    (threshold : ℚ) (maxRank : Option ℕ) (st : HSt α) (i : ℕ) : HSt α :=
  let operator := st.h.mem opR
  let rhs := st.h.mem rhsR
  let sol := st.h.mem solR
  let sro := constructStackRightOp O (i + 1) st.sro operator sol
  let srr := constructStackRightRhs O (i + 1) st.srr rhs sol
  let mo := constructMicroMatrixMals O i st.slo sro operator sol
  let mr := constructMicroRhsMals O i st.slr srr rhs sol
  ⟨writeSol st.h solR (updateCoreMals O i mo mr sol solver "backward" threshold maxRank),
    st.slo, st.slr, sro, srr⟩

/-- One heap-level MALS repeat. -/
def malsSweepH (O : Ops α) (opR rhsR solR : ℕ) (solver : String)
    (threshold : ℚ) (maxRank : Option ℕ) (st : HSt α) : HSt α :=
  let n := (st.h.mem opR).order
  let st1 := (List.range (n - 1)).foldl
    (malsForwardStepH O opR rhsR solR solver threshold maxRank) st
  ((List.range (n - 1)).reverse).foldl
    (malsBackwardStepH O opR rhsR solR solver threshold maxRank) st1

/-- Heap-level mals. -/
def malsH (O : Ops α) (h : Heap α) (opR gsR rhsR : ℕ) (repeats : ℤ)
    (solver : String) (threshold : ℚ) (maxRank : Option ℕ) : ℕ × Heap α :=
  let solR := h.next
  let h1 : Heap α := ⟨h.next + 1, fun x => if x = solR then h.mem gsR else h.mem x⟩
  let n := (h1.mem opR).order
  let st0 : HSt α := ⟨h1,
    List.replicate n O.uninit, List.replicate n O.uninit,
    List.replicate n O.uninit, List.replicate n O.uninit⟩
  let st1 := (((List.range (n - 1)).map (fun j => j + 1)).reverse).foldl
    (rightInitStepH O opR rhsR solR) st0
  (solR, (loopN (malsSweepH O opR rhsR solR solver threshold maxRank) repeats.toNat st1).h)

/-- Fallible list indexing, mirroring Python sequence indexing. -/
def idxE (l : List β) (i : ℕ) : Except String β :=
  match l[i]? with
  | some a => Except.ok a
  | none => Except.error "index out of range"

/-- Fallible construct_stack_right_op: same contractions as the total
model, with every sequence read able to raise, in the evaluation order of
sle.py lines 246-256 (the solution core is read before the stack slot and
the operator core). -/
def constructStackRightOpE (O : Ops α) (i : ℕ) (stk : List α)
    (operator solution : TT α) : Except String (List α) :=
  if i = operator.order - 1 then
    Except.ok (stk.set i O.one3)
  else
    match idxE solution.cores (i + 1), idxE stk (i + 1) with
    | Except.ok sc, Except.ok sp =>
      let t1 := O.tdot (O.slice0 sc.data) sp [(2, 2)]
      match idxE operator.cores (i + 1) with
      | Except.ok oc =>
        let t2 := O.tdot oc.data t1 [(1, 1), (3, 3)]
        match idxE solution.cores (i + 1) with
        | Except.ok sc2 =>
          Except.ok (stk.set i (O.tdot (O.slice0 sc2.data) t2 [(1, 1), (2, 3)]))
        | Except.error e => Except.error e
      | Except.error e => Except.error e
    | Except.error e, _ => Except.error e
    | _, Except.error e => Except.error e

/-- Fallible construct_stack_right_rhs, sle.py lines 274-284. -/
def constructStackRightRhsE (O : Ops α) (i : ℕ) (stk : List α)
    (rightHandSide solution : TT α) : Except String (List α) :=
  if i = rightHandSide.order - 1 then
    Except.ok (stk.set i O.one2)
  else
    match idxE solution.cores (i + 1), idxE stk (i + 1) with
    | Except.ok sc, Except.ok sp =>
      let t1 := O.tdot (O.slice0 sc.data) sp [(2, 1)]
      match idxE rightHandSide.cores (i + 1) with
      | Except.ok rc =>
        Except.ok (stk.set i (O.tdot (O.slice0 rc.data) t1 [(1, 1), (2, 2)]))
      | Except.error e => Except.error e
    | Except.error e, _ => Except.error e
    | _, Except.error e => Except.error e

/-- Stack-construction events (which stack slot was successfully written),
plus micro-system assembly/solve events for the trace model. -/
inductive Ev where
  | leftOp : ℕ → Ev
  | leftRhs : ℕ → Ev
  | rightOp : ℕ → Ev
  | rightRhs : ℕ → Ev
  | assembleAls : ℕ → Ev
  | solveAls : ℕ → String → Ev
  | assembleMals : ℕ → Ev
  | solveMals : ℕ → String → Ev
  deriving DecidableEq

/-- The right-stack initialization loop of als/mals (sle.py lines 47-49
and 134-136) with fallible indexing, recording which stack slots were
written before any failure. -/
def rightInitLoopE (O : Ops α) (operator rhs solution : TT α) :
    List ℕ → List α → List α → List Ev → List Ev × Except String (List α × List α)
  | [], sro, srr, tr => (tr, Except.ok (sro, srr))
  | i :: rest, sro, srr, tr =>
    match constructStackRightOpE O i sro operator solution with
    | Except.error e => (tr, Except.error e)
    | Except.ok sro2 =>
      match constructStackRightRhsE O i srr rhs solution with
      | Except.error e => (tr ++ [Ev.rightOp i], Except.error e)
      | Except.ok srr2 =>
        rightInitLoopE O operator rhs solution rest sro2 srr2 (tr ++ [Ev.rightOp i, Ev.rightRhs i])

/-- The entry phase of als up to and including the right-stack
construction loop (sle.py lines 36-49): no validation of any kind happens
before this loop.  The solution is the copy of the initial guess. -/
def alsInitE (O : Ops α) (operator initialGuess rhs : TT α) :
    List Ev × Except String (List α × List α) :=
  rightInitLoopE O operator rhs initialGuess ((List.range operator.order).reverse)
    (List.replicate operator.order O.uninit) (List.replicate operator.order O.uninit) []

/-- The entry phase of mals up to and including the right-stack
construction loop (sle.py lines 124-136); the loop runs from order-1 down
to 1. -/
def malsInitE (O : Ops α) (operator initialGuess rhs : TT α) :
    List Ev × Except String (List α × List α) :=
  rightInitLoopE O operator rhs initialGuess
    (((List.range (operator.order - 1)).map (fun j => j + 1)).reverse)
    (List.replicate operator.order O.uninit) (List.replicate operator.order O.uninit) []

/-- Trace of one ALS first half sweep, sle.py lines 58-70: left stacks are
built at every site, the micro system is assembled and solved only for
i < order - 1. -/
def alsForwardTrace (order : ℕ) : List Ev :=
  (List.range order).flatMap (fun i =>
    [Ev.leftOp i, Ev.leftRhs i] ++
      (if i < order - 1 then [Ev.assembleAls i, Ev.solveAls i "forward"] else []))

/-- Trace of one ALS second half sweep, sle.py lines 73-83: right stacks
rebuilt and the micro system assembled and solved at every site, from
order-1 down to 0. -/
def alsBackwardTrace (order : ℕ) : List Ev :=
  ((List.range order).reverse).flatMap (fun i =>
    [Ev.rightOp i, Ev.rightRhs i, Ev.assembleAls i, Ev.solveAls i "backward"])

/-- Trace of one MALS first half sweep, sle.py lines 145-157: pairs
0..order-2; assemble and solve only for i < order - 2. -/
def malsForwardTrace (order : ℕ) : List Ev :=
  (List.range (order - 1)).flatMap (fun i =>
    [Ev.leftOp i, Ev.leftRhs i] ++
      (if i < order - 2 then [Ev.assembleMals i, Ev.solveMals i "forward"] else []))

/-- Trace of one MALS second half sweep, sle.py lines 160-170: pairs
order-2 down to 0, right stacks rebuilt at slot i+1. -/
def malsBackwardTrace (order : ℕ) : List Ev :=
  ((List.range (order - 1)).reverse).flatMap (fun i =>
    [Ev.rightOp (i + 1), Ev.rightRhs (i + 1), Ev.assembleMals i, Ev.solveMals i "backward"])

/-- A local-solver strategy: given a square dense matrix and a matching
column vector, produce a vector (spec section 4.3). -/
def SolveStrategy : Type :=
  (k : ℕ) → Matrix (Fin k) (Fin k) ℚ → (Fin k → ℚ) → (Fin k → ℚ)

/-- Modelled from the spec: the numeric contract of the external dense
local-solver primitives (numpy `solve` and scipy `lu_factor`/`lu_solve`
are not part of this repository): on a nonsingular matrix the returned
vector solves the system. -/
def SolveSpec (f : SolveStrategy) : Prop :=
  ∀ (k : ℕ) (A : Matrix (Fin k) (Fin k) ℚ) (b : Fin k → ℚ),
    IsUnit A.det → A.mulVec (f k A b) = b

/-- A direct realization of the solver contract (the inverse written as
adjugate over determinant, which is computable). -/
def invStrategy : SolveStrategy := fun _ A b => (A.det⁻¹ • A.adjugate).mulVec b

/-- A second realization of the solver contract (guards on the
determinant first). -/
def chkStrategy : SolveStrategy := fun _ A b =>
  if A.det ≠ 0 then (A.det⁻¹ • A.adjugate).mulVec b else fun _ => 0

/-- Sample TT tensor over the symbolic payload: order n, all ranks rk,
all row dims rd, all col dims cd, cores tagged `inp tag i`. -/
def sampleTT (tag n rk rd cd : ℕ) : TT D :=
  ⟨n, (List.range n).map (fun i => ⟨[rk, rd, cd, rk], D.inp tag i⟩),
    List.replicate (n + 1) rk, List.replicate n rd, List.replicate n cd⟩

/-- Validity of the cores of a TT after a MALS backward half sweep: the
j-th core is present and is a 4-axis array whose bond axes match the
ranks sequence. -/
def coreOK (t : TT α) (j : ℕ) : Prop :=
  ∃ c, t.cores[j]? = some c ∧
    c.shape = [t.ranks.getD j 0, t.rowDims.getD j 0, 1, t.ranks.getD (j + 1) 0]

/-- The MALS backward half sweep written over the explicit pair list
k, k-1, ..., 0 (the sweep itself uses k = order - 2). -/
def malsBackFold (O : Ops α) (operator rightHandSide : TT α) (solver : String)
    (threshold : ℚ) (maxRank : Option ℕ) (k : ℕ) (st : SweepSt α) : SweepSt α :=
  ((List.range (k + 1)).reverse).foldl
    (malsBackwardStep O operator rightHandSide solver threshold maxRank) st

/-- Sample operator (order 3). -/
def ttOp : TT D := sampleTT 0 3 1 2 2

/-- Sample right-hand side (order 3). -/
def ttRhs : TT D := sampleTT 1 3 1 2 1

/-- Sample initial guess (order 3). -/
def ttGs : TT D := sampleTT 2 3 1 2 1

/-- Sample operator of order 4 (for the order-mismatch scenario). -/
def ttOp4 : TT D := sampleTT 0 4 1 2 2

/-- Sample initial guess of order 4. -/
def ttGs4 : TT D := sampleTT 2 4 1 2 1

/-- Sample heap: operator at 0, initial guess at 1, right-hand side at 2. -/
def heap0 : Heap D := ⟨3, fun r => if r = 0 then ttOp else if r = 1 then ttGs else ttRhs⟩

/-- Sample TT over the trivial payload. -/
def ttU : TT Unit :=
  ⟨2, [⟨[1, 2, 1, 1], ()⟩, ⟨[1, 2, 1, 1], ()⟩], [1, 1, 1], [2, 2], [1, 1]⟩

/-- Sample sweep state for the MALS backward half sweep. -/
def stW : SweepSt D :=
  ⟨ttGs, List.replicate 3 D.uninit, List.replicate 3 D.uninit,
    List.replicate 3 D.uninit, List.replicate 3 D.uninit⟩

/-- Sample micro matrix. -/
def moW : Core D := ⟨[4, 4], D.inp 0 99⟩

/-- Sample micro right-hand side. -/
def mrW : Core D := ⟨[4, 1], D.inp 1 99⟩

/-- The core produced by the update_core_mals local-solve dispatch. -/
def malsC (O : Ops α) (i : ℕ) (mo mr : Core α) (sol : TT α) (solver : String) : Core α :=
  dispatchMals O solver mo mr (sol.cores.getD i (defCore O))

/-- The matrix handed to the SVD inside update_core_mals: the solved
block reshaped to (ranks[i]*row_dims[i], row_dims[i+1]*ranks[i+2]). -/
def malsA (O : Ops α) (i : ℕ) (mo mr : Core α) (sol : TT α) (solver : String) : α :=
  O.reshapeM (malsC O i mo mr sol solver).data
    [sol.ranks.getD i 0 * sol.rowDims.getD i 0,
      sol.rowDims.getD (i + 1) 0 * sol.ranks.getD (i + 2) 0]

section Lemmas

/-- Generic fold invariant: a projection preserved by every step is
preserved by the fold. -/
theorem foldl_preserve {σ β γ : Type} (g : σ → γ) (f : σ → β → σ)
    (hf : ∀ st b, g (f st b) = g st) :
    ∀ (l : List β) (st : σ), g (l.foldl f st) = g st
  | [], _ => rfl
  | b :: l, st => (foldl_preserve g f hf l (f st b)).trans (hf st b)

/-- Generic fold invariant, monotone version. -/
theorem foldl_mono {σ β : Type} (g : σ → ℕ) (f : σ → β → σ)
    (hf : ∀ st b, g (f st b) ≤ g st) :
    ∀ (l : List β) (st : σ), g (l.foldl f st) ≤ g st
  | [], _ => le_refl _
  | b :: l, st => (foldl_mono g f hf l (f st b)).trans (hf st b)

/-- Generic loop invariant. -/
theorem loopN_preserve {σ γ : Type} (g : σ → γ) (f : σ → σ)
    (hf : ∀ st, g (f st) = g st) :
    ∀ (n : ℕ) (st : σ), g (loopN f n st) = g st
  | 0, _ => rfl
  | n + 1, st => (loopN_preserve g f hf n (f st)).trans (hf st)

/-- Generic loop invariant, monotone version. -/
theorem loopN_mono {σ : Type} (g : σ → ℕ) (f : σ → σ)
    (hf : ∀ st, g (f st) ≤ g st) :
    ∀ (n : ℕ) (st : σ), g (loopN f n st) ≤ g st
  | 0, _ => le_refl _
  | n + 1, st => (loopN_mono g f hf n (f st)).trans (hf st)

/-- Folds of pointwise-equal step functions agree. -/
theorem foldl_funext {σ β : Type} (f g : σ → β → σ) (h : ∀ st b, f st b = g st b) :
    ∀ (l : List β) (st : σ), l.foldl f st = l.foldl g st
  | [], _ => rfl
  | b :: l, st => by
    rw [List.foldl_cons, List.foldl_cons, h st b]
    exact foldl_funext f g h l (g st b)

/-- Loops of pointwise-equal bodies agree. -/
theorem loopN_funext {σ : Type} (f g : σ → σ) (h : ∀ st, f st = g st) :
    ∀ (n : ℕ) (st : σ), loopN f n st = loopN g n st
  | 0, _ => rfl
  | n + 1, st => by
    rw [loopN, loopN, h st]
    exact loopN_funext f g h n (g st)

/-- getD after set at the written index. -/
theorem lgetD_set_self {β : Type} (l : List β) (k : ℕ) (v d : β) (h : k < l.length) :
    (l.set k v).getD k d = v := by
  rw [List.getD_eq_getElem?_getD, List.getElem?_set_eq_of_lt v h]
  rfl

/-- getD after set at another index. -/
theorem lgetD_set_ne {β : Type} (l : List β) (k j : ℕ) (v d : β) (h : k ≠ j) :
    (l.set k v).getD j d = l.getD j d := by
  rw [List.getD_eq_getElem?_getD, List.getD_eq_getElem?_getD, List.getElem?_set_ne h]

/-- Writing a value bounded by the overwritten entry can only decrease
entries pointwise. -/
theorem lgetD_set_le (l : List ℕ) (k v j : ℕ) (h : v ≤ l.getD k 0) :
    (l.set k v).getD j 0 ≤ l.getD j 0 := by
  by_cases hkj : k = j
  · subst hkj
    by_cases hk : k < l.length
    · rw [lgetD_set_self l k v 0 hk]
      exact h
    · rw [List.set_eq_of_length_le (le_of_not_lt hk)]
  · rw [lgetD_set_ne l k j v 0 hkj]

/-- Unfolding of update_core_als in the forward direction. -/
theorem updAls_forward_def {α : Type} (O : Ops α) (i : ℕ) (mo mr : Core α)
    (sol : TT α) (solver : String) :
    updateCoreAls O i mo mr sol solver "forward" =
      ⟨sol.order,
        (sol.cores.set i (dispatchAls O solver mo mr (sol.cores.getD i (defCore O)))).set i
          ⟨[(sol.ranks.set (i + 1)
                (min (sol.ranks.getD i 0 * sol.rowDims.getD i 0)
                  (sol.ranks.getD (i + 1) 0))).getD i 0,
            sol.rowDims.getD i 0, 1,
            (sol.ranks.set (i + 1)
                (min (sol.ranks.getD i 0 * sol.rowDims.getD i 0)
                  (sol.ranks.getD (i + 1) 0))).getD (i + 1) 0],
            O.qrQ (O.reshapeM
              (dispatchAls O solver mo mr (sol.cores.getD i (defCore O))).data
              [sol.ranks.getD i 0 * sol.rowDims.getD i 0, sol.ranks.getD (i + 1) 0])⟩,
        sol.ranks.set (i + 1)
          (min (sol.ranks.getD i 0 * sol.rowDims.getD i 0) (sol.ranks.getD (i + 1) 0)),
        sol.rowDims, sol.colDims⟩ := rfl

/-- Unfolding of update_core_als in the backward direction. -/
theorem updAls_backward_def {α : Type} (O : Ops α) (i : ℕ) (mo mr : Core α)
    (sol : TT α) (solver : String) :
    updateCoreAls O i mo mr sol solver "backward" =
      (if 0 < i then
        ⟨sol.order,
          (sol.cores.set i (dispatchAls O solver mo mr (sol.cores.getD i (defCore O)))).set i
            ⟨[(sol.ranks.set i
                  (min (sol.ranks.getD i 0)
                    (sol.rowDims.getD i 0 * sol.ranks.getD (i + 1) 0))).getD i 0,
              sol.rowDims.getD i 0, 1,
              (sol.ranks.set i
                  (min (sol.ranks.getD i 0)
                    (sol.rowDims.getD i 0 * sol.ranks.getD (i + 1) 0))).getD (i + 1) 0],
              O.rqQ (O.reshapeM
                (dispatchAls O solver mo mr (sol.cores.getD i (defCore O))).data
                [sol.ranks.getD i 0, sol.rowDims.getD i 0 * sol.ranks.getD (i + 1) 0])⟩,
          sol.ranks.set i
            (min (sol.ranks.getD i 0) (sol.rowDims.getD i 0 * sol.ranks.getD (i + 1) 0)),
          sol.rowDims, sol.colDims⟩
      else
        ⟨sol.order,
          (sol.cores.set i (dispatchAls O solver mo mr (sol.cores.getD i (defCore O)))).set i
            ⟨[sol.ranks.getD i 0, sol.rowDims.getD i 0, 1, sol.ranks.getD (i + 1) 0],
              (dispatchAls O solver mo mr (sol.cores.getD i (defCore O))).data⟩,
          sol.ranks, sol.rowDims, sol.colDims⟩) := rfl

/-- Unfolding of update_core_mals in the forward direction. -/
theorem updMals_forward_def {α : Type} (O : Ops α) (i : ℕ) (mo mr : Core α)
    (sol : TT α) (solver : String) (θ : ℚ) (mk : Option ℕ) :
    updateCoreMals O i mo mr sol solver "forward" θ mk =
      ⟨sol.order,
        (sol.cores.set i (malsC O i mo mr sol solver)).set i
          ⟨[(sol.ranks.set (i + 1)
                (truncS θ mk (O.svdS (malsA O i mo mr sol solver))).length).getD i 0,
            sol.rowDims.getD i 0, 1,
            (sol.ranks.set (i + 1)
                (truncS θ mk (O.svdS (malsA O i mo mr sol solver))).length).getD (i + 1) 0],
            truncU O θ mk (O.svdU (malsA O i mo mr sol solver))
              (O.svdS (malsA O i mo mr sol solver))⟩,
        sol.ranks.set (i + 1) (truncS θ mk (O.svdS (malsA O i mo mr sol solver))).length,
        sol.rowDims, sol.colDims⟩ := rfl

/-- Unfolding of update_core_mals in the backward direction. -/
theorem updMals_backward_def {α : Type} (O : Ops α) (i : ℕ) (mo mr : Core α)
    (sol : TT α) (solver : String) (θ : ℚ) (mk : Option ℕ) :
    updateCoreMals O i mo mr sol solver "backward" θ mk =
      (if i = 0 then
        ⟨sol.order,
          ((sol.cores.set i (malsC O i mo mr sol solver)).set (i + 1)
            ⟨[(sol.ranks.set (i + 1)
                  (truncS θ mk (O.svdS (malsA O i mo mr sol solver))).length).getD (i + 1) 0,
              sol.rowDims.getD (i + 1) 0, 1,
              (sol.ranks.set (i + 1)
                  (truncS θ mk (O.svdS (malsA O i mo mr sol solver))).length).getD (i + 2) 0],
              truncV O θ mk (O.svdV (malsA O i mo mr sol solver))
                (O.svdS (malsA O i mo mr sol solver))⟩).set i
            ⟨[(sol.ranks.set (i + 1)
                  (truncS θ mk (O.svdS (malsA O i mo mr sol solver))).length).getD i 0,
              sol.rowDims.getD i 0, 1,
              (sol.ranks.set (i + 1)
                  (truncS θ mk (O.svdS (malsA O i mo mr sol solver))).length).getD (i + 1) 0],
              O.mulDiag
                (truncU O θ mk (O.svdU (malsA O i mo mr sol solver))
                  (O.svdS (malsA O i mo mr sol solver)))
                (truncS θ mk (O.svdS (malsA O i mo mr sol solver)))⟩,
          sol.ranks.set (i + 1) (truncS θ mk (O.svdS (malsA O i mo mr sol solver))).length,
          sol.rowDims, sol.colDims⟩
      else
        ⟨sol.order,
          (sol.cores.set i (malsC O i mo mr sol solver)).set (i + 1)
            ⟨[(sol.ranks.set (i + 1)
                  (truncS θ mk (O.svdS (malsA O i mo mr sol solver))).length).getD (i + 1) 0,
              sol.rowDims.getD (i + 1) 0, 1,
              (sol.ranks.set (i + 1)
                  (truncS θ mk (O.svdS (malsA O i mo mr sol solver))).length).getD (i + 2) 0],
              truncV O θ mk (O.svdV (malsA O i mo mr sol solver))
                (O.svdS (malsA O i mo mr sol solver))⟩,
          sol.ranks.set (i + 1) (truncS θ mk (O.svdS (malsA O i mo mr sol solver))).length,
          sol.rowDims, sol.colDims⟩) := rfl

end Lemmas

/-- C3: calling ALS with repeats = 0 executes no sweep and returns a
tensor numerically identical to the input initial guess; the returned
object is the deep copy made at entry, living at a fresh reference
distinct from the caller-supplied initial guess. -/
theorem als_zero_repeats_returns_copy {α : Type} (O : Ops α)
    (operator initialGuess rightHandSide : TT α) (solver : String)
    (h : Heap α) (opR gsR rhsR : ℕ) (hgs : gsR < h.next) :
    als O operator initialGuess rightHandSide 0 solver = initialGuess
    ∧ (alsH O h opR gsR rhsR 0 solver).1 = h.next
    ∧ (alsH O h opR gsR rhsR 0 solver).2.mem (alsH O h opR gsR rhsR 0 solver).1
        = h.mem gsR
    ∧ (alsH O h opR gsR rhsR 0 solver).1 ≠ gsR := by
  have hpure : als O operator initialGuess rightHandSide 0 solver = initialGuess :=
    foldl_preserve SweepSt.sol (rightInitStep O operator rightHandSide)
      (fun _ _ => rfl) _ _
  have hheap : (alsH O h opR gsR rhsR 0 solver).2
      = ⟨h.next + 1, fun x => if x = h.next then h.mem gsR else h.mem x⟩ :=
    foldl_preserve HSt.h (rightInitStepH O opR rhsR h.next) (fun _ _ => rfl) _ _
  have hfst : (alsH O h opR gsR rhsR 0 solver).1 = h.next := rfl
  refine ⟨hpure, hfst, ?_, ?_⟩
  · rw [hheap, hfst]
    simp
  · rw [hfst]
    exact ne_of_gt hgs

/-- C3 witness at a concrete order-3 system. -/
theorem als_zero_repeats_returns_copy_witness :
    als DOps ttOp ttGs ttRhs 0 "solve" = ttGs
    ∧ (alsH DOps heap0 0 1 2 0 "solve").1 = 3
    ∧ (alsH DOps heap0 0 1 2 0 "solve").2.mem 3 = heap0.mem 1
    ∧ (alsH DOps heap0 0 1 2 0 "solve").1 ≠ 1 := by
  have h := als_zero_repeats_returns_copy DOps ttOp ttGs ttRhs "solve" heap0 0 1 2
    (by decide)
  refine ⟨h.1, h.2.1, ?_, ?_⟩
  · have h3 := h.2.2.1
    rw [h.2.1] at h3
    exact h3
  · rw [h.2.1]
    decide

/-- Helper: with an unrecognized solver string the dispatch of
update_core_als leaves the previous core contents in place. -/
theorem dispatchAls_unknown {α : Type} (O : Ops α) (solver : String)
    (mo mr old : Core α) (h1 : solver ≠ "solve") (h2 : solver ≠ "lu") :
    dispatchAls O solver mo mr old = old := by
  simp [dispatchAls, h1, h2]

/-- Helper: with an unrecognized solver string the dispatch of
update_core_mals likewise leaves the previous core contents in place. -/
theorem dispatchMals_unknown {α : Type} (O : Ops α) (solver : String)
    (mo mr old : Core α) (h1 : solver ≠ "solve") (h2 : solver ≠ "lu") :
    dispatchMals O solver mo mr old = old := by
  simp [dispatchMals, h1, h2]

/-- C2 (amended claim): sle.py performs no configuration validation at
entry.  An unrecognized solver string is silently ignored by the two
dispatch ifs of update_core_als AND of update_core_mals, so the core
update proceeds: the orthonormalization step (QR for ALS, SVD plus
truncation for MALS) is applied to the previous core contents and its
result is stored.  A non-positive repeats simply runs zero sweeps: ALS
and MALS return the copied initial guess without error, for any threshold
and max_rank. -/
theorem no_config_validation {α : Type} (O : Ops α) :
    (∀ (i : ℕ) (mo mr : Core α) (sol : TT α) (solver : String),
      solver ≠ "solve" → solver ≠ "lu" → i < sol.cores.length →
      ((updateCoreAls O i mo mr sol solver "forward").cores[i]?).map Core.data
        = some (O.qrQ (O.reshapeM (sol.cores.getD i (defCore O)).data
            [sol.ranks.getD i 0 * sol.rowDims.getD i 0, sol.ranks.getD (i + 1) 0])))
    ∧ (∀ (i : ℕ) (mo mr : Core α) (sol : TT α) (solver : String) (θ : ℚ)
        (mk : Option ℕ),
        solver ≠ "solve" → solver ≠ "lu" → i < sol.cores.length →
        ((updateCoreMals O i mo mr sol solver "forward" θ mk).cores[i]?).map Core.data
          = some (truncU O θ mk
              (O.svdU (O.reshapeM (sol.cores.getD i (defCore O)).data
                [sol.ranks.getD i 0 * sol.rowDims.getD i 0,
                  sol.rowDims.getD (i + 1) 0 * sol.ranks.getD (i + 2) 0]))
              (O.svdS (O.reshapeM (sol.cores.getD i (defCore O)).data
                [sol.ranks.getD i 0 * sol.rowDims.getD i 0,
                  sol.rowDims.getD (i + 1) 0 * sol.ranks.getD (i + 2) 0]))))
    ∧ (∀ (operator initialGuess rightHandSide : TT α) (solver : String) (r : ℤ),
        r ≤ 0 → als O operator initialGuess rightHandSide r solver = initialGuess)
    ∧ (∀ (operator initialGuess rightHandSide : TT α) (solver : String) (θ : ℚ)
        (mk : Option ℕ) (r : ℤ), r ≤ 0 →
        mals O operator initialGuess rightHandSide r solver θ mk = initialGuess) := by
  refine ⟨?_, ?_, ?_, ?_⟩
  · intro i mo mr sol solver h1 h2 hlen
    have hd := dispatchAls_unknown O solver mo mr (sol.cores.getD i (defCore O)) h1 h2
    rw [updAls_forward_def, hd, List.set_set]
    rw [List.getElem?_set_eq_of_lt _ hlen]
    rfl
  · intro i mo mr sol solver θ mk h1 h2 hlen
    have hd := dispatchMals_unknown O solver mo mr (sol.cores.getD i (defCore O)) h1 h2
    rw [updMals_forward_def]
    simp only [malsA, malsC, hd]
    rw [List.set_set, List.getElem?_set_eq_of_lt _ hlen]
    rfl
  · intro operator initialGuess rightHandSide solver r hr
    have h0 : r.toNat = 0 := Int.toNat_of_nonpos hr
    simp only [als, h0, loopN]
    exact foldl_preserve SweepSt.sol (rightInitStep O operator rightHandSide)
      (fun _ _ => rfl) _ _
  · intro operator initialGuess rightHandSide solver θ mk r hr
    have h0 : r.toNat = 0 := Int.toNat_of_nonpos hr
    simp only [mals, h0, loopN]
    exact foldl_preserve SweepSt.sol (rightInitStep O operator rightHandSide)
      (fun _ _ => rfl) _ _

/-- C2 counterexample: with the unrecognized solver string "cg" no error
is raised; the ALS core update proceeds with the previous core contents
(the initial-guess core, inp 2 0, flows into the QR step and is stored
back), and a negative repeats returns the copied guess without error. -/
theorem unknown_solver_counterexample :
    (updateCoreAls DOps 0 moW mrW (sampleTT 2 2 1 2 1) "cg" "forward").cores[0]?
      = some ⟨[1, 2, 1, 1], D.qrQ (D.reshapeM (D.inp 2 0) [2, 1])⟩
    ∧ als DOps ttOp ttGs ttRhs (-1) "solve" = ttGs := by
  constructor
  · rfl
  · rfl

/-- C2 witness for the amended claim. -/
theorem no_config_validation_witness :
    ((updateCoreAls DOps 0 moW mrW (sampleTT 2 2 1 2 1) "cg" "forward").cores[0]?).map
        Core.data
      = some (DOps.qrQ (DOps.reshapeM ((sampleTT 2 2 1 2 1).cores.getD 0
          (defCore DOps)).data
          [(sampleTT 2 2 1 2 1).ranks.getD 0 0 * (sampleTT 2 2 1 2 1).rowDims.getD 0 0,
            (sampleTT 2 2 1 2 1).ranks.getD 1 0]))
    ∧ ((updateCoreMals DOps 0 moW mrW (sampleTT 2 2 1 2 1) "cg" "forward"
          0 none).cores[0]?).map Core.data
        = some (truncU DOps 0 none
            (DOps.svdU (DOps.reshapeM ((sampleTT 2 2 1 2 1).cores.getD 0
              (defCore DOps)).data
              [(sampleTT 2 2 1 2 1).ranks.getD 0 0
                  * (sampleTT 2 2 1 2 1).rowDims.getD 0 0,
                (sampleTT 2 2 1 2 1).rowDims.getD 1 0
                  * (sampleTT 2 2 1 2 1).ranks.getD 2 0]))
            (DOps.svdS (DOps.reshapeM ((sampleTT 2 2 1 2 1).cores.getD 0
              (defCore DOps)).data
              [(sampleTT 2 2 1 2 1).ranks.getD 0 0
                  * (sampleTT 2 2 1 2 1).rowDims.getD 0 0,
                (sampleTT 2 2 1 2 1).rowDims.getD 1 0
                  * (sampleTT 2 2 1 2 1).ranks.getD 2 0])))
    ∧ als DOps ttOp ttGs ttRhs (-2) "solve" = ttGs := by
  have h := no_config_validation DOps
  exact ⟨h.1 0 moW mrW (sampleTT 2 2 1 2 1) "cg" (by decide) (by decide) (by decide),
    h.2.1 0 moW mrW (sampleTT 2 2 1 2 1) "cg" 0 none (by decide) (by decide) (by decide),
    h.2.2.1 ttOp ttGs ttRhs "solve" (-2) (by decide)⟩

/-- Helper: any single update_core_als call leaves every rank entry at
most its previous value (forward writes min(m, n) over ranks i+1,
backward over ranks i, the terminal branch writes no rank). -/
theorem updAls_ranks_le {α : Type} (O : Ops α) (i : ℕ) (mo mr : Core α) (sol : TT α)
    (solver direction : String) (j : ℕ) :
    (updateCoreAls O i mo mr sol solver direction).ranks.getD j 0
      ≤ sol.ranks.getD j 0 := by
  by_cases hf : direction = "forward"
  · subst hf
    rw [updAls_forward_def]
    exact lgetD_set_le _ _ _ _ (min_le_right _ _)
  · by_cases hb : direction = "backward"
    · subst hb
      rw [updAls_backward_def]
      by_cases hi : 0 < i
      · rw [if_pos hi]
        exact lgetD_set_le _ _ _ _ (min_le_left _ _)
      · rw [if_neg hi]
    · simp only [updateCoreAls, if_neg hb, if_neg hf]
      exact le_refl _

/-- Helper: every rank of the ALS output is bounded by the corresponding
rank of the initial guess. -/
theorem als_ranks_bound {α : Type} (O : Ops α)
    (operator initialGuess rightHandSide : TT α) (repeats : ℤ) (solver : String)
    (j : ℕ) :
    (als O operator initialGuess rightHandSide repeats solver).ranks.getD j 0
      ≤ initialGuess.ranks.getD j 0 := by
  have hstepF : ∀ (st : SweepSt α) (i : ℕ),
      ((alsForwardStep O operator rightHandSide solver st i).sol.ranks.getD j 0)
        ≤ st.sol.ranks.getD j 0 := by
    intro st i
    simp only [alsForwardStep]
    by_cases hlt : i < operator.order - 1
    · rw [if_pos hlt]
      exact updAls_ranks_le O i _ _ st.sol solver "forward" j
    · rw [if_neg hlt]
  have hstepB : ∀ (st : SweepSt α) (i : ℕ),
      ((alsBackwardStep O operator rightHandSide solver st i).sol.ranks.getD j 0)
        ≤ st.sol.ranks.getD j 0 := by
    intro st i
    exact updAls_ranks_le O i _ _ st.sol solver "backward" j
  have hsweep : ∀ (st : SweepSt α),
      ((alsSweep O operator rightHandSide solver st).sol.ranks.getD j 0)
        ≤ st.sol.ranks.getD j 0 := by
    intro st
    exact le_trans
      (foldl_mono (fun st : SweepSt α => st.sol.ranks.getD j 0) _ hstepB _ _)
      (foldl_mono (fun st : SweepSt α => st.sol.ranks.getD j 0) _ hstepF _ _)
  have hloop := loopN_mono (fun st : SweepSt α => st.sol.ranks.getD j 0)
    (alsSweep O operator rightHandSide solver) hsweep repeats.toNat
  have hinit := foldl_preserve SweepSt.sol (rightInitStep O operator rightHandSide)
    (fun _ _ => rfl)
  refine le_trans (hloop _) ?_
  rw [hinit]

/-- C9: ALS never increases any bond rank: a forward update sets
ranks[i+1] to the economy-QR column count min(ranks[i]*row_dims[i],
ranks[i+1]); a backward update at i > 0 sets ranks[i] to the economy-RQ
row count min(ranks[i], row_dims[i]*ranks[i+1]); every update is
pointwise nonincreasing on ranks, hence every rank of the ALS output is
bounded by the corresponding rank of the initial guess. -/
theorem als_ranks_nonincreasing {α : Type} (O : Ops α) :
    (∀ (i : ℕ) (mo mr : Core α) (sol : TT α) (solver : String),
      i + 1 < sol.ranks.length →
      (updateCoreAls O i mo mr sol solver "forward").ranks.getD (i + 1) 0
        = min (sol.ranks.getD i 0 * sol.rowDims.getD i 0) (sol.ranks.getD (i + 1) 0))
    ∧ (∀ (i : ℕ) (mo mr : Core α) (sol : TT α) (solver : String),
        0 < i → i < sol.ranks.length →
        (updateCoreAls O i mo mr sol solver "backward").ranks.getD i 0
          = min (sol.ranks.getD i 0) (sol.rowDims.getD i 0 * sol.ranks.getD (i + 1) 0))
    ∧ (∀ (i : ℕ) (mo mr : Core α) (sol : TT α) (solver direction : String) (j : ℕ),
        (updateCoreAls O i mo mr sol solver direction).ranks.getD j 0
          ≤ sol.ranks.getD j 0)
    ∧ (∀ (operator initialGuess rightHandSide : TT α) (repeats : ℤ)
        (solver : String) (j : ℕ),
        (als O operator initialGuess rightHandSide repeats solver).ranks.getD j 0
          ≤ initialGuess.ranks.getD j 0) := by
  refine ⟨?_, ?_, ?_, ?_⟩
  · intro i mo mr sol solver hlen
    rw [updAls_forward_def]
    exact lgetD_set_self _ _ _ _ hlen
  · intro i mo mr sol solver hi hlen
    rw [updAls_backward_def, if_pos hi]
    exact lgetD_set_self _ _ _ _ hlen
  · intro i mo mr sol solver direction j
    exact updAls_ranks_le O i mo mr sol solver direction j
  · intro operator initialGuess rightHandSide repeats solver j
    exact als_ranks_bound O operator initialGuess rightHandSide repeats solver j

/-- C5: the sweep traces.  ALS forward builds left stacks at every site
0..order-1 but assembles and solves only for i < order-1; ALS backward
rebuilds right stacks and solves at every site.  MALS forward covers
pairs 0..order-2 and skips the solve at the final pair (i < order-2);
MALS backward covers pairs order-2..0 and rebuilds right stacks at slot
i+1 (slots 1..order-1). -/
theorem sweep_trace_structure : ∀ (order i : ℕ),
    (Ev.leftOp i ∈ alsForwardTrace order ↔ i < order)
    ∧ (Ev.solveAls i "forward" ∈ alsForwardTrace order ↔ i < order - 1)
    ∧ (Ev.assembleAls i ∈ alsForwardTrace order ↔ i < order - 1)
    ∧ (Ev.solveAls i "backward" ∈ alsBackwardTrace order ↔ i < order)
    ∧ (Ev.rightOp i ∈ alsBackwardTrace order ↔ i < order)
    ∧ (Ev.leftOp i ∈ malsForwardTrace order ↔ i < order - 1)
    ∧ (Ev.solveMals i "forward" ∈ malsForwardTrace order ↔ i < order - 2)
    ∧ (Ev.solveMals i "backward" ∈ malsBackwardTrace order ↔ i < order - 1)
    ∧ (Ev.rightOp i ∈ malsBackwardTrace order ↔ 1 ≤ i ∧ i ≤ order - 1) := by
  intro order i
  refine ⟨?_, ?_, ?_, ?_, ?_, ?_, ?_, ?_, ?_⟩
  · simp [alsForwardTrace, List.mem_flatMap, List.mem_ite_nil_right]
  · simp [alsForwardTrace, List.mem_flatMap, List.mem_ite_nil_right]
    omega
  · simp [alsForwardTrace, List.mem_flatMap, List.mem_ite_nil_right]
    omega
  · simp [alsBackwardTrace, List.mem_flatMap]
  · simp [alsBackwardTrace, List.mem_flatMap]
  · simp [malsForwardTrace, List.mem_flatMap, List.mem_ite_nil_right]
  · simp [malsForwardTrace, List.mem_flatMap, List.mem_ite_nil_right]
    omega
  · simp [malsBackwardTrace, List.mem_flatMap]
  · simp [malsBackwardTrace, List.mem_flatMap]
    constructor
    · rintro ⟨a, ha, rfl⟩
      omega
    · rintro ⟨h1, h2⟩
      exact ⟨i - 1, by omega, by omega⟩

/-- Helper: the head of a list sorted in decreasing order bounds every
element (the SVD returns singular values sorted descending, so s[0] is the
largest). -/
theorem sorted_head_max (s : List ℚ) (hs : List.Sorted (fun a b => a ≥ b) s) :
    ∀ y ∈ s, y ≤ s.headD 0 := by
  cases s with
  | nil =>
    intro y hy
    cases hy
  | cons a t =>
    intro y hy
    rcases List.mem_cons.mp hy with h | h
    · subst h
      exact le_refl _
    · exact (List.sorted_cons.mp hs).1 y h

/-- Helper: every value retained by the MALS truncation passes the
relative-threshold test against s[0]. -/
theorem truncS_mem_ratio (θ : ℚ) (mk : Option ℕ) (s : List ℚ) (hθ : θ ≠ 0) :
    ∀ x ∈ truncS θ mk s, x / s.headD 0 > θ := by
  intro x hx
  have hx1 : x ∈ (svdFilterIdx θ s).map (fun j => s.getD j 0) := by
    cases mk with
    | none => simpa [truncS, hθ] using hx
    | some r =>
      simp only [truncS, if_pos hθ] at hx
      exact List.mem_of_mem_take hx
  rcases List.mem_map.mp hx1 with ⟨j, hj, hval⟩
  have hp := (List.mem_filter.mp hj).2
  rw [← hval]
  simpa using hp

/-- C4: after a MALS forward update the new bond rank ranks[i+1] is the
retained singular-value count; with a finite max_rank the count never
exceeds it; with threshold > 0 every retained value x satisfies
x / s[0] > threshold, and s[0] is the maximum since the SVD returns the
values sorted descending; threshold = 0 disables relative truncation and
max_rank = none (the np.infty sentinel) disables the absolute cap, both
disabled leaving s untouched. -/
theorem mals_truncation_invariant {α : Type} (O : Ops α) (i : ℕ) (mo mr : Core α)
    (sol : TT α) (solver : String) (θ : ℚ) (mk : Option ℕ) (m : ℕ) (s : List ℚ)
    (hs : s = O.svdS (malsA O i mo mr sol solver))
    (hsort : List.Sorted (fun a b => a ≥ b) s)
    (hrk : i + 1 < sol.ranks.length) :
    ((updateCoreMals O i mo mr sol solver "forward" θ mk).ranks.getD (i + 1) 0
        = (truncS θ mk s).length)
    ∧ (truncS θ (some m) s).length ≤ m
    ∧ (0 < θ → ∀ x ∈ truncS θ mk s, x / s.headD 0 > θ)
    ∧ (∀ y ∈ s, y ≤ s.headD 0)
    ∧ truncS 0 none s = s
    ∧ truncS 0 (some m) s = s.take (min s.length m) := by
  refine ⟨?_, ?_, ?_, ?_, ?_, ?_⟩
  · subst hs
    rw [updMals_forward_def]
    exact lgetD_set_self _ _ _ _ hrk
  · simp only [truncS]
    exact le_trans (List.length_take_le _ _) (min_le_right _ _)
  · intro hθpos
    exact truncS_mem_ratio θ mk s (ne_of_gt hθpos)
  · exact sorted_head_max s hsort
  · simp [truncS]
  · simp [truncS]

/-- C4 witness at a concrete update (singular values [1], threshold 0,
max_rank 4). -/
theorem mals_truncation_invariant_witness :
    (updateCoreMals DOps 0 moW mrW ttGs "solve" "forward" 0 (some 4)).ranks.getD 1 0 = 1
    ∧ truncS 0 none [(1 : ℚ)] = [(1 : ℚ)] := by
  have h := mals_truncation_invariant DOps 0 moW mrW ttGs "solve" 0 (some 4) 4
    (DOps.svdS (malsA DOps 0 moW mrW ttGs "solve")) rfl (List.sorted_singleton _)
    (by decide)
  exact ⟨h.1.trans (by decide), h.2.2.2.2.1⟩

/-- C6: terminal backward updates.  ALS at site i = 0 performs no
factorization: the raw solved values (the dispatch output) are reshaped
to 4 axes and stored as core 0.  MALS at pair i = 0 stores u @ diag(s)
(the singular values folded into the left factor) as core 0, with the new
bond rank equal to the retained count, and stores the right factor v as
core 1. -/
theorem terminal_core_updates {α : Type} (O : Ops α) (mo mr : Core α) (sol : TT α)
    (solver : String) (θ : ℚ) (mk : Option ℕ)
    (hlen : 1 < sol.cores.length) (hrk : 1 < sol.ranks.length) :
    (updateCoreAls O 0 mo mr sol solver "backward").cores[0]?
      = some ⟨[sol.ranks.getD 0 0, sol.rowDims.getD 0 0, 1, sol.ranks.getD 1 0],
          (dispatchAls O solver mo mr (sol.cores.getD 0 (defCore O))).data⟩
    ∧ (updateCoreMals O 0 mo mr sol solver "backward" θ mk).cores[0]?
        = some ⟨[sol.ranks.getD 0 0, sol.rowDims.getD 0 0, 1,
            (truncS θ mk (O.svdS (malsA O 0 mo mr sol solver))).length],
            O.mulDiag
              (truncU O θ mk (O.svdU (malsA O 0 mo mr sol solver))
                (O.svdS (malsA O 0 mo mr sol solver)))
              (truncS θ mk (O.svdS (malsA O 0 mo mr sol solver)))⟩
    ∧ (updateCoreMals O 0 mo mr sol solver "backward" θ mk).cores[1]?
        = some ⟨[(truncS θ mk (O.svdS (malsA O 0 mo mr sol solver))).length,
            sol.rowDims.getD 1 0, 1, sol.ranks.getD 2 0],
            truncV O θ mk (O.svdV (malsA O 0 mo mr sol solver))
              (O.svdS (malsA O 0 mo mr sol solver))⟩ := by
  have h0 : 0 < sol.cores.length := lt_trans zero_lt_one hlen
  refine ⟨?_, ?_, ?_⟩
  · rw [updAls_backward_def, if_neg (lt_irrefl 0), List.set_set]
    rw [List.getElem?_set_eq_of_lt _ h0]
  · rw [updMals_backward_def, if_pos rfl]
    simp only [Nat.zero_add]
    rw [List.getElem?_set_eq_of_lt _ (by simpa using h0)]
    rw [lgetD_set_self _ _ _ _ hrk, lgetD_set_ne _ _ _ _ _ (by decide : (1 : ℕ) ≠ 0)]
  · rw [updMals_backward_def, if_pos rfl]
    simp only [Nat.zero_add]
    rw [List.getElem?_set_ne (by decide : (0 : ℕ) ≠ 1)]
    rw [List.getElem?_set_eq_of_lt _ (by simpa using hlen)]
    rw [lgetD_set_self _ _ _ _ hrk, lgetD_set_ne _ _ _ _ _ (by decide : (1 : ℕ) ≠ 2)]

/-- C6 witness at a concrete order-3 system. -/
theorem terminal_core_updates_witness :
    (updateCoreAls DOps 0 moW mrW ttGs "solve" "backward").cores[0]?
      = some ⟨[1, 2, 1, 1], D.npsolve (D.inp 0 99) (D.inp 1 99)⟩
    ∧ (updateCoreMals DOps 0 moW mrW ttGs "solve" "backward" 0 none).cores[1]?
        = some ⟨[1, 2, 1, 1],
            D.svdV (D.reshapeM (D.lasolve (D.inp 0 99) (D.inp 1 99)) [2, 2])⟩ := by
  have h := terminal_core_updates DOps moW mrW ttGs "solve" 0 none (by decide) (by decide)
  exact ⟨h.1.trans (by decide), h.2.2.trans (by decide)⟩

/-- Helper: writing the solution object leaves every other reference
unchanged. -/
theorem writeSol_mem_ne {α : Type} (h : Heap α) (solR r : ℕ) (t : TT α)
    (hr : r ≠ solR) : (writeSol h solR t).mem r = h.mem r := by
  simp [writeSol, hr]

/-- Helper frame property for heap-level ALS: only the fresh solution
reference is ever written, and exactly one allocation happens. -/
theorem alsH_frame {α : Type} (O : Ops α) (h : Heap α) (opR gsR rhsR : ℕ)
    (repeats : ℤ) (solver : String) (r : ℕ) (hr : r ≠ h.next) :
    (alsH O h opR gsR rhsR repeats solver).2.mem r = h.mem r
    ∧ (alsH O h opR gsR rhsR repeats solver).2.next = h.next + 1 := by
  have hFm : ∀ (st : HSt α) (i : ℕ),
      (alsForwardStepH O opR rhsR h.next solver st i).h.mem r = st.h.mem r := by
    intro st i
    simp only [alsForwardStepH]
    by_cases hc : i < (st.h.mem opR).order - 1
    · rw [if_pos hc]
      exact writeSol_mem_ne _ _ _ _ hr
    · rw [if_neg hc]
  have hFn : ∀ (st : HSt α) (i : ℕ),
      (alsForwardStepH O opR rhsR h.next solver st i).h.next = st.h.next := by
    intro st i
    simp only [alsForwardStepH]
    by_cases hc : i < (st.h.mem opR).order - 1
    · rw [if_pos hc]
      rfl
    · rw [if_neg hc]
  have hBm : ∀ (st : HSt α) (i : ℕ),
      (alsBackwardStepH O opR rhsR h.next solver st i).h.mem r = st.h.mem r := by
    intro st i
    exact writeSol_mem_ne _ _ _ _ hr
  have hBn : ∀ (st : HSt α) (i : ℕ),
      (alsBackwardStepH O opR rhsR h.next solver st i).h.next = st.h.next := by
    intro st i
    rfl
  have hswm : ∀ st : HSt α,
      (alsSweepH O opR rhsR h.next solver st).h.mem r = st.h.mem r := by
    intro st
    exact (foldl_preserve (fun st : HSt α => st.h.mem r) _ hBm _ _).trans
      (foldl_preserve (fun st : HSt α => st.h.mem r) _ hFm _ _)
  have hswn : ∀ st : HSt α,
      (alsSweepH O opR rhsR h.next solver st).h.next = st.h.next := by
    intro st
    exact (foldl_preserve (fun st : HSt α => st.h.next) _ hBn _ _).trans
      (foldl_preserve (fun st : HSt α => st.h.next) _ hFn _ _)
  have hinit : ∀ (l : List ℕ) (st : HSt α),
      (l.foldl (rightInitStepH O opR rhsR h.next) st).h = st.h :=
    foldl_preserve HSt.h _ (fun _ _ => rfl)
  constructor
  · exact (loopN_preserve (fun st : HSt α => st.h.mem r) _ hswm repeats.toNat _).trans
      (by rw [hinit]; simp [hr])
  · exact (loopN_preserve (fun st : HSt α => st.h.next) _ hswn repeats.toNat _).trans
      (by rw [hinit])

/-- Helper frame property for heap-level MALS. -/
theorem malsH_frame {α : Type} (O : Ops α) (h : Heap α) (opR gsR rhsR : ℕ)
    (repeats : ℤ) (solver : String) (θ : ℚ) (mk : Option ℕ) (r : ℕ)
    (hr : r ≠ h.next) :
    (malsH O h opR gsR rhsR repeats solver θ mk).2.mem r = h.mem r
    ∧ (malsH O h opR gsR rhsR repeats solver θ mk).2.next = h.next + 1 := by
  have hFm : ∀ (st : HSt α) (i : ℕ),
      (malsForwardStepH O opR rhsR h.next solver θ mk st i).h.mem r = st.h.mem r := by
    intro st i
    simp only [malsForwardStepH]
    by_cases hc : i < (st.h.mem opR).order - 2
    · rw [if_pos hc]
      exact writeSol_mem_ne _ _ _ _ hr
    · rw [if_neg hc]
  have hFn : ∀ (st : HSt α) (i : ℕ),
      (malsForwardStepH O opR rhsR h.next solver θ mk st i).h.next = st.h.next := by
    intro st i
    simp only [malsForwardStepH]
    by_cases hc : i < (st.h.mem opR).order - 2
    · rw [if_pos hc]
      rfl
    · rw [if_neg hc]
  have hBm : ∀ (st : HSt α) (i : ℕ),
      (malsBackwardStepH O opR rhsR h.next solver θ mk st i).h.mem r = st.h.mem r := by
    intro st i
    exact writeSol_mem_ne _ _ _ _ hr
  have hBn : ∀ (st : HSt α) (i : ℕ),
      (malsBackwardStepH O opR rhsR h.next solver θ mk st i).h.next = st.h.next := by
    intro st i
    rfl
  have hswm : ∀ st : HSt α,
      (malsSweepH O opR rhsR h.next solver θ mk st).h.mem r = st.h.mem r := by
    intro st
    exact (foldl_preserve (fun st : HSt α => st.h.mem r) _ hBm _ _).trans
      (foldl_preserve (fun st : HSt α => st.h.mem r) _ hFm _ _)
  have hswn : ∀ st : HSt α,
      (malsSweepH O opR rhsR h.next solver θ mk st).h.next = st.h.next := by
    intro st
    exact (foldl_preserve (fun st : HSt α => st.h.next) _ hBn _ _).trans
      (foldl_preserve (fun st : HSt α => st.h.next) _ hFn _ _)
  have hinit : ∀ (l : List ℕ) (st : HSt α),
      (l.foldl (rightInitStepH O opR rhsR h.next) st).h = st.h :=
    foldl_preserve HSt.h _ (fun _ _ => rfl)
  constructor
  · exact (loopN_preserve (fun st : HSt α => st.h.mem r) _ hswm repeats.toNat _).trans
      (by rw [hinit]; simp [hr])
  · exact (loopN_preserve (fun st : HSt α => st.h.next) _ hswn repeats.toNat _).trans
      (by rw [hinit])

/-- C7: the caller-supplied operator, right-hand side and initial guess
are never mutated by als or mals: the solution is allocated exactly once
as a copy at a fresh reference (distinct from all valid input
references), all writes during the sweeps target only that reference,
and every other reference reads back unchanged after the call. -/
theorem inputs_never_mutated {α : Type} (O : Ops α) (h : Heap α) (opR gsR rhsR : ℕ)
    (repeats : ℤ) (solver : String) (θ : ℚ) (mk : Option ℕ)
    (hop : opR < h.next) (hgs : gsR < h.next) (hrh : rhsR < h.next) :
    (alsH O h opR gsR rhsR repeats solver).1 = h.next
    ∧ (∀ r, r ≠ h.next → (alsH O h opR gsR rhsR repeats solver).2.mem r = h.mem r)
    ∧ (alsH O h opR gsR rhsR repeats solver).2.next = h.next + 1
    ∧ (alsH O h opR gsR rhsR repeats solver).1 ≠ opR
    ∧ (alsH O h opR gsR rhsR repeats solver).1 ≠ gsR
    ∧ (alsH O h opR gsR rhsR repeats solver).1 ≠ rhsR
    ∧ (malsH O h opR gsR rhsR repeats solver θ mk).1 = h.next
    ∧ (∀ r, r ≠ h.next → (malsH O h opR gsR rhsR repeats solver θ mk).2.mem r = h.mem r)
    ∧ (malsH O h opR gsR rhsR repeats solver θ mk).2.next = h.next + 1 := by
  refine ⟨rfl, fun r hr => (alsH_frame O h opR gsR rhsR repeats solver r hr).1,
    (alsH_frame O h opR gsR rhsR repeats solver (h.next + 1) (by omega)).2,
    ne_of_gt hop, ne_of_gt hgs, ne_of_gt hrh, rfl,
    fun r hr => (malsH_frame O h opR gsR rhsR repeats solver θ mk r hr).1,
    (malsH_frame O h opR gsR rhsR repeats solver θ mk (h.next + 1) (by omega)).2⟩

/-- C7 witness at a concrete heap. -/
theorem inputs_never_mutated_witness :
    (alsH DOps heap0 0 1 2 1 "solve").1 = 3
    ∧ (alsH DOps heap0 0 1 2 1 "solve").2.mem 7 = heap0.mem 7
    ∧ (alsH DOps heap0 0 1 2 1 "solve").2.next = 4
    ∧ (malsH DOps heap0 0 1 2 1 "solve" 0 none).2.mem 0 = heap0.mem 0 := by
  have h := inputs_never_mutated DOps heap0 0 1 2 1 "solve" 0 none
    (by decide) (by decide) (by decide)
  exact ⟨h.1, h.2.1 7 (by decide), h.2.2.1, h.2.2.2.2.2.2.2.1 0 (by decide)⟩

/-- Helper: the solver contract determines the output on nonsingular
systems: invStrategy satisfies it. -/
theorem invStrategy_spec : SolveSpec invStrategy := by
  intro k A b hA
  have hne : A.det ≠ 0 := isUnit_iff_ne_zero.mp hA
  show A.mulVec ((A.det⁻¹ • A.adjugate).mulVec b) = b
  rw [Matrix.mulVec_mulVec, Matrix.mul_smul, Matrix.mul_adjugate, smul_smul,
    inv_mul_cancel₀ hne, one_smul, Matrix.one_mulVec]

/-- Helper: chkStrategy satisfies the solver contract. -/
theorem chkStrategy_spec : SolveSpec chkStrategy := by
  intro k A b hA
  have hne : A.det ≠ 0 := isUnit_iff_ne_zero.mp hA
  show A.mulVec (if A.det ≠ 0 then (A.det⁻¹ • A.adjugate).mulVec b else fun _ => 0) = b
  rw [if_pos hne]
  exact invStrategy_spec k A b hA

/-- Helper: when the numeric primitives of the two dispatch branches
agree, als and mals are literally solver-independent. -/
theorem als_mals_solver_eq {α : Type} (O : Ops α)
    (hnp : ∀ a b, O.npsolve a b = O.luSolve (O.luFactor a) b)
    (hla : ∀ a b, O.lasolve a b = O.luSolve (O.luFactor a) b)
    (operator initialGuess rightHandSide : TT α) (repeats : ℤ) (θ : ℚ)
    (mk : Option ℕ) :
    als O operator initialGuess rightHandSide repeats "solve"
      = als O operator initialGuess rightHandSide repeats "lu"
    ∧ mals O operator initialGuess rightHandSide repeats "solve" θ mk
      = mals O operator initialGuess rightHandSide repeats "lu" θ mk := by
  have hdA : ∀ (mo mr old : Core α),
      dispatchAls O "solve" mo mr old = dispatchAls O "lu" mo mr old := by
    intro mo mr old
    have e1 : dispatchAls O "solve" mo mr old
        = ⟨mr.shape, O.npsolve mo.data mr.data⟩ := rfl
    have e2 : dispatchAls O "lu" mo mr old
        = ⟨mr.shape, O.luSolve (O.luFactor mo.data) mr.data⟩ := rfl
    rw [e1, e2, hnp]
  have hdM : ∀ (mo mr old : Core α),
      dispatchMals O "solve" mo mr old = dispatchMals O "lu" mo mr old := by
    intro mo mr old
    have e1 : dispatchMals O "solve" mo mr old
        = ⟨mr.shape, O.lasolve mo.data mr.data⟩ := rfl
    have e2 : dispatchMals O "lu" mo mr old
        = ⟨mr.shape, O.luSolve (O.luFactor mo.data) mr.data⟩ := rfl
    rw [e1, e2, hla]
  have huA : ∀ (i : ℕ) (mo mr : Core α) (sol : TT α) (direction : String),
      updateCoreAls O i mo mr sol "solve" direction
        = updateCoreAls O i mo mr sol "lu" direction := by
    intro i mo mr sol direction
    simp only [updateCoreAls, hdA]
  have huM : ∀ (i : ℕ) (mo mr : Core α) (sol : TT α) (direction : String),
      updateCoreMals O i mo mr sol "solve" direction θ mk
        = updateCoreMals O i mo mr sol "lu" direction θ mk := by
    intro i mo mr sol direction
    simp only [updateCoreMals, hdM]
  constructor
  · have hsF : ∀ (st : SweepSt α) (i : ℕ),
        alsForwardStep O operator rightHandSide "solve" st i
          = alsForwardStep O operator rightHandSide "lu" st i := by
      intro st i
      simp only [alsForwardStep, huA]
    have hsB : ∀ (st : SweepSt α) (i : ℕ),
        alsBackwardStep O operator rightHandSide "solve" st i
          = alsBackwardStep O operator rightHandSide "lu" st i := by
      intro st i
      simp only [alsBackwardStep, huA]
    have hsw : ∀ st : SweepSt α,
        alsSweep O operator rightHandSide "solve" st
          = alsSweep O operator rightHandSide "lu" st := by
      intro st
      simp only [alsSweep]
      rw [foldl_funext _ _ hsF, foldl_funext _ _ hsB]
    simp only [als]
    rw [loopN_funext _ _ hsw]
  · have hsF : ∀ (st : SweepSt α) (i : ℕ),
        malsForwardStep O operator rightHandSide "solve" θ mk st i
          = malsForwardStep O operator rightHandSide "lu" θ mk st i := by
      intro st i
      simp only [malsForwardStep, huM]
    have hsB : ∀ (st : SweepSt α) (i : ℕ),
        malsBackwardStep O operator rightHandSide "solve" θ mk st i
          = malsBackwardStep O operator rightHandSide "lu" θ mk st i := by
      intro st i
      simp only [malsBackwardStep, huM]
    have hsw : ∀ st : SweepSt α,
        malsSweep O operator rightHandSide "solve" θ mk st
          = malsSweep O operator rightHandSide "lu" θ mk st := by
      intro st
      simp only [malsSweep, malsBackwardSweep]
      rw [foldl_funext _ _ hsF, foldl_funext _ _ hsB]
    simp only [mals]
    rw [loopN_funext _ _ hsw]

/-- C8: the two selectable local-solver strategies are functionally
equivalent.  At the level of the external numeric contract, any two
functions satisfying the solve specification agree on every square
nonsingular system; consequently, whenever the direct-solve primitive
and the LU factor-then-solve composition compute the same values, ALS
and MALS return identical results under either solver string. -/
theorem solver_strategies_equivalent :
    (∀ (f g : SolveStrategy), SolveSpec f → SolveSpec g →
      ∀ (k : ℕ) (A : Matrix (Fin k) (Fin k) ℚ) (b : Fin k → ℚ),
        IsUnit A.det → f k A b = g k A b)
    ∧ (∀ (α : Type) (O : Ops α),
        (∀ a b, O.npsolve a b = O.luSolve (O.luFactor a) b) →
        (∀ a b, O.lasolve a b = O.luSolve (O.luFactor a) b) →
        ∀ (operator initialGuess rightHandSide : TT α) (repeats : ℤ) (θ : ℚ)
          (mk : Option ℕ),
          als O operator initialGuess rightHandSide repeats "solve"
            = als O operator initialGuess rightHandSide repeats "lu"
          ∧ mals O operator initialGuess rightHandSide repeats "solve" θ mk
            = mals O operator initialGuess rightHandSide repeats "lu" θ mk) := by
  constructor
  · intro f g hf hg k A b hA
    have h1 := hf k A b hA
    have h2 := hg k A b hA
    have h3 : A⁻¹.mulVec (A.mulVec (f k A b)) = A⁻¹.mulVec (A.mulVec (g k A b)) := by
      rw [h1, h2]
    rwa [Matrix.mulVec_mulVec, Matrix.mulVec_mulVec, Matrix.nonsing_inv_mul A hA,
      Matrix.one_mulVec, Matrix.one_mulVec] at h3
  · intro α O hnp hla operator initialGuess rightHandSide repeats θ mk
    exact als_mals_solver_eq O hnp hla operator initialGuess rightHandSide repeats θ mk

/-- C8 witness: two contract-satisfying strategies agree on a concrete
nonsingular 1-by-1 system, and als over the trivial payload returns the
same tensor for both solver strings. -/
theorem solver_strategies_equivalent_witness :
    invStrategy 1 (1 : Matrix (Fin 1) (Fin 1) ℚ) (fun _ => 3)
      = chkStrategy 1 (1 : Matrix (Fin 1) (Fin 1) ℚ) (fun _ => 3)
    ∧ als OUnit ttU ttU ttU 1 "solve" = als OUnit ttU ttU ttU 1 "lu" := by
  have h := solver_strategies_equivalent
  refine ⟨h.1 invStrategy chkStrategy invStrategy_spec chkStrategy_spec 1 1
    (fun _ => 3) (by simp), ?_⟩
  exact (h.2 Unit OUnit (fun _ _ => rfl) (fun _ _ => rfl) ttU ttU ttU 1 0 none).1

/-- Helper: peeling the first index off a reversed range. -/
theorem range_reverse_cons (n : ℕ) (hn : 0 < n) :
    (List.range n).reverse = (n - 1) :: (List.range (n - 1)).reverse := by
  cases n with
  | zero => cases hn
  | succ m => simp [List.range_succ]

/-- Helper: peeling the first index off the MALS init loop list
(order-1 down to 1). -/
theorem map_range_reverse_cons (m : ℕ) (hm : 0 < m) :
    ((List.range m).map (fun j => j + 1)).reverse
      = m :: ((List.range (m - 1)).map (fun j => j + 1)).reverse := by
  cases m with
  | zero => cases hm
  | succ k => simp [List.range_succ]

/-- C1 (amended claim): neither als nor mals validates the orders at
entry.  With rhs.order < operator.order (both at least 1) and an initial
guess holding at most operator.order cores, both solvers fail with an
index error raised inside the right-stack construction loop, at its very
first iteration - but only AFTER the right operator-stack slot order-1
has been successfully written, so the failure is not prior to all stack
building; the inputs themselves are never written by the init phase. -/
theorem als_mals_order_mismatch_index_error {α : Type} (O : Ops α)
    (operator initialGuess rhs : TT α)
    (h1 : rhs.order < operator.order) (h2 : 1 ≤ rhs.order)
    (h3 : initialGuess.cores.length ≤ operator.order) :
    alsInitE O operator initialGuess rhs
      = ([Ev.rightOp (operator.order - 1)], Except.error "index out of range")
    ∧ malsInitE O operator initialGuess rhs
      = ([Ev.rightOp (operator.order - 1)], Except.error "index out of range") := by
  have hn : 0 < operator.order := by omega
  have hok : constructStackRightOpE O (operator.order - 1)
      (List.replicate operator.order O.uninit) operator initialGuess
      = Except.ok ((List.replicate operator.order O.uninit).set (operator.order - 1)
          O.one3) := by
    rw [constructStackRightOpE, if_pos rfl]
  have hne : ¬ (operator.order - 1 = rhs.order - 1) := by omega
  have hidx : (initialGuess.cores)[operator.order - 1 + 1]? = none := by
    rw [List.getElem?_eq_none]
    omega
  have hidxE : idxE initialGuess.cores (operator.order - 1 + 1)
      = Except.error "index out of range" := by
    rw [idxE, hidx]
  have herr : constructStackRightRhsE O (operator.order - 1)
      (List.replicate operator.order O.uninit) rhs initialGuess
      = Except.error "index out of range" := by
    have hidxS : idxE (List.replicate operator.order O.uninit) (operator.order - 1 + 1)
        = Except.error "index out of range" := by
      rw [idxE, List.getElem?_eq_none]
      simp
      omega
    rw [constructStackRightRhsE, if_neg hne, hidxE, hidxS]
  constructor
  · rw [alsInitE, range_reverse_cons operator.order hn, rightInitLoopE, hok, herr]
    simp
  · rw [malsInitE, map_range_reverse_cons (operator.order - 1) (by omega),
      rightInitLoopE, hok, herr]
    simp

/-- C1 witness for the amended claim. -/
theorem als_mals_order_mismatch_index_error_witness :
    alsInitE DOps ttOp4 ttGs4 ttRhs
      = ([Ev.rightOp 3], Except.error "index out of range")
    ∧ malsInitE DOps ttOp4 ttGs4 ttRhs
      = ([Ev.rightOp 3], Except.error "index out of range") := by
  have h := als_mals_order_mismatch_index_error DOps ttOp4 ttGs4 ttRhs
    (by decide) (by decide) (by decide)
  exact ⟨h.1, h.2⟩

/-- C1 counterexample: with operator.order = 4 and right_hand_side.order
= 3 the call does NOT fail before any stack is built: the trace of
successful stack writes at the failure point is nonempty (the right
operator-stack slot 3 was built), and only then does the index error
surface. -/
theorem als_order_mismatch_counterexample :
    (alsInitE DOps ttOp4 ttGs4 ttRhs).2 = Except.error "index out of range"
    ∧ (alsInitE DOps ttOp4 ttGs4 ttRhs).1 = [Ev.rightOp 3]
    ∧ (alsInitE DOps ttOp4 ttGs4 ttRhs).1 ≠ [] := by
  refine ⟨rfl, rfl, ?_⟩
  decide

/-- Helper: whatever the solver string, the dispatched MALS core carries
the micro right-hand-side shape (N, 1) when the solver is recognized. -/
theorem dispatchMals_shape {α : Type} (O : Ops α) (solver : String) (mo mr old : Core α)
    (hsl : solver = "solve" ∨ solver = "lu") :
    (dispatchMals O solver mo mr old).shape = mr.shape := by
  rcases hsl with h | h <;> subst h <;> rfl

/-- Helper: shape of the dispatched core through malsC. -/
theorem malsC_shape {α : Type} (O : Ops α) (i : ℕ) (mo mr : Core α) (sol : TT α)
    (solver : String) (hsl : solver = "solve" ∨ solver = "lu") :
    (malsC O i mo mr sol solver).shape = mr.shape :=
  dispatchMals_shape O solver mo mr _ hsl

/-- Helper: fields of the TT unchanged by a backward update_core_mals. -/
theorem updMals_backward_fields {α : Type} (O : Ops α) (i : ℕ) (mo mr : Core α)
    (sol : TT α) (solver : String) (θ : ℚ) (mk : Option ℕ) :
    (updateCoreMals O i mo mr sol solver "backward" θ mk).cores.length = sol.cores.length
    ∧ (updateCoreMals O i mo mr sol solver "backward" θ mk).rowDims = sol.rowDims
    ∧ (∀ j, j ≠ i + 1 →
        (updateCoreMals O i mo mr sol solver "backward" θ mk).ranks.getD j 0
          = sol.ranks.getD j 0)
    ∧ (∀ j, j ≠ i → j ≠ i + 1 →
        (updateCoreMals O i mo mr sol solver "backward" θ mk).cores[j]?
          = sol.cores[j]?) := by
  rw [updMals_backward_def]
  by_cases h0 : i = 0
  · rw [if_pos h0]
    refine ⟨by simp, rfl, ?_, ?_⟩
    · intro j hj
      exact lgetD_set_ne _ _ _ _ _ (Ne.symm hj)
    · intro j hj1 hj2
      rw [List.getElem?_set_ne (Ne.symm hj1), List.getElem?_set_ne (Ne.symm hj2),
        List.getElem?_set_ne (Ne.symm hj1)]
  · rw [if_neg h0]
    refine ⟨by simp, rfl, ?_, ?_⟩
    · intro j hj
      exact lgetD_set_ne _ _ _ _ _ (Ne.symm hj)
    · intro j hj1 hj2
      rw [List.getElem?_set_ne (Ne.symm hj2), List.getElem?_set_ne (Ne.symm hj1)]

/-- Helper: a backward update_core_mals at pair i > 0 leaves core i
holding the raw dispatched micro solution (it is NOT reshaped to 4 axes
by this step). -/
theorem updMals_backward_core_raw {α : Type} (O : Ops α) (i : ℕ) (mo mr : Core α)
    (sol : TT α) (solver : String) (θ : ℚ) (mk : Option ℕ)
    (hi : i ≠ 0) (hlen : i < sol.cores.length) :
    (updateCoreMals O i mo mr sol solver "backward" θ mk).cores[i]?
      = some (malsC O i mo mr sol solver) := by
  rw [updMals_backward_def, if_neg hi]
  rw [List.getElem?_set_ne (by omega : i + 1 ≠ i), List.getElem?_set_eq_of_lt _ hlen]

/-- Helper: a backward update_core_mals at pair i > 0 writes core i+1 as
the 4-axis right singular-vector factor, bond axes taken from the updated
ranks. -/
theorem updMals_backward_core_v {α : Type} (O : Ops α) (i : ℕ) (mo mr : Core α)
    (sol : TT α) (solver : String) (θ : ℚ) (mk : Option ℕ)
    (hi : i ≠ 0) (hlen : i + 1 < sol.cores.length) :
    (updateCoreMals O i mo mr sol solver "backward" θ mk).cores[i + 1]?
      = some ⟨[(updateCoreMals O i mo mr sol solver "backward" θ mk).ranks.getD (i + 1) 0,
          sol.rowDims.getD (i + 1) 0, 1,
          (updateCoreMals O i mo mr sol solver "backward" θ mk).ranks.getD (i + 2) 0],
          truncV O θ mk (O.svdV (malsA O i mo mr sol solver))
            (O.svdS (malsA O i mo mr sol solver))⟩ := by
  rw [updMals_backward_def, if_neg hi]
  rw [List.getElem?_set_eq_of_lt _ (by simpa using hlen)]

/-- Helper: the terminal backward update_core_mals (pair 0) writes both
cores 0 and 1 in 4-axis form. -/
theorem updMals_backward_core_zero {α : Type} (O : Ops α) (mo mr : Core α)
    (sol : TT α) (solver : String) (θ : ℚ) (mk : Option ℕ)
    (hlen : 1 < sol.cores.length) :
    (updateCoreMals O 0 mo mr sol solver "backward" θ mk).cores[0]?
      = some ⟨[(updateCoreMals O 0 mo mr sol solver "backward" θ mk).ranks.getD 0 0,
          sol.rowDims.getD 0 0, 1,
          (updateCoreMals O 0 mo mr sol solver "backward" θ mk).ranks.getD 1 0],
          O.mulDiag (truncU O θ mk (O.svdU (malsA O 0 mo mr sol solver))
            (O.svdS (malsA O 0 mo mr sol solver)))
            (truncS θ mk (O.svdS (malsA O 0 mo mr sol solver)))⟩
    ∧ (updateCoreMals O 0 mo mr sol solver "backward" θ mk).cores[1]?
        = some ⟨[(updateCoreMals O 0 mo mr sol solver "backward" θ mk).ranks.getD 1 0,
            sol.rowDims.getD 1 0, 1,
            (updateCoreMals O 0 mo mr sol solver "backward" θ mk).ranks.getD 2 0],
            truncV O θ mk (O.svdV (malsA O 0 mo mr sol solver))
              (O.svdS (malsA O 0 mo mr sol solver))⟩ := by
  have h0 : 0 < sol.cores.length := lt_trans zero_lt_one hlen
  rw [updMals_backward_def, if_pos rfl]
  simp only [Nat.zero_add]
  constructor
  · rw [List.getElem?_set_eq_of_lt _ (by simpa using h0)]
  · rw [List.getElem?_set_ne (by omega : (0 : ℕ) ≠ 1),
      List.getElem?_set_eq_of_lt _ (by simpa using hlen)]

/-- Helper: structural properties of one MALS backward step. -/
theorem malsBackwardStep_props {α : Type} (O : Ops α) (operator rhs : TT α)
    (solver : String) (θ : ℚ) (mk : Option ℕ) (st : SweepSt α) (i : ℕ)
    (hlen : i + 1 < st.sol.cores.length) :
    (0 < i → coreOK (malsBackwardStep O operator rhs solver θ mk st i).sol (i + 1))
    ∧ (i = 0 → coreOK (malsBackwardStep O operator rhs solver θ mk st i).sol 0
        ∧ coreOK (malsBackwardStep O operator rhs solver θ mk st i).sol 1)
    ∧ (∀ j, j ≠ i → j ≠ i + 1 →
        (malsBackwardStep O operator rhs solver θ mk st i).sol.cores[j]?
          = st.sol.cores[j]?)
    ∧ (∀ j, j ≠ i + 1 →
        (malsBackwardStep O operator rhs solver θ mk st i).sol.ranks.getD j 0
          = st.sol.ranks.getD j 0)
    ∧ (malsBackwardStep O operator rhs solver θ mk st i).sol.cores.length
        = st.sol.cores.length
    ∧ (malsBackwardStep O operator rhs solver θ mk st i).sol.rowDims
        = st.sol.rowDims := by
  obtain ⟨mo, mr, hstep⟩ : ∃ mo mr,
      (malsBackwardStep O operator rhs solver θ mk st i).sol
        = updateCoreMals O i mo mr st.sol solver "backward" θ mk := ⟨_, _, rfl⟩
  rw [hstep]
  have hf := updMals_backward_fields O i mo mr st.sol solver θ mk
  refine ⟨?_, ?_, hf.2.2.2, hf.2.2.1, hf.1, hf.2.1⟩
  · intro hi
    refine ⟨_, updMals_backward_core_v O i mo mr st.sol solver θ mk (by omega) hlen, ?_⟩
    rw [hf.2.1]
  · intro h0
    subst h0
    have hz := updMals_backward_core_zero O mo mr st.sol solver θ mk hlen
    constructor
    · refine ⟨_, hz.1, ?_⟩
      rw [hf.2.1]
    · refine ⟨_, hz.2, ?_⟩
      rw [hf.2.1]

/-- Helper: peeling one step off the backward pair fold. -/
theorem malsBackFold_succ {α : Type} (O : Ops α) (operator rhs : TT α)
    (solver : String) (θ : ℚ) (mk : Option ℕ) (k : ℕ) (st : SweepSt α) :
    malsBackFold O operator rhs solver θ mk (k + 1) st
      = malsBackFold O operator rhs solver θ mk k
          (malsBackwardStep O operator rhs solver θ mk st (k + 1)) := by
  have e : k + 2 - 1 = k + 1 := by omega
  simp only [malsBackFold]
  rw [range_reverse_cons (k + 2) (by omega), e, List.foldl_cons]

/-- Helper: after the backward pair fold k..0, cores 0..k+1 are all valid
4-axis cores matching the final ranks; everything above k+1 is untouched. -/
theorem malsBackFold_ok {α : Type} (O : Ops α) (operator rhs : TT α) (solver : String)
    (θ : ℚ) (mk : Option ℕ) :
    ∀ (k : ℕ) (st : SweepSt α), k + 2 ≤ st.sol.cores.length →
      (∀ j, j ≤ k + 1 → coreOK (malsBackFold O operator rhs solver θ mk k st).sol j)
      ∧ (∀ j, k + 1 < j →
          (malsBackFold O operator rhs solver θ mk k st).sol.cores[j]?
            = st.sol.cores[j]?)
      ∧ (∀ j, k + 2 ≤ j →
          (malsBackFold O operator rhs solver θ mk k st).sol.ranks.getD j 0
            = st.sol.ranks.getD j 0)
      ∧ (malsBackFold O operator rhs solver θ mk k st).sol.cores.length
          = st.sol.cores.length
      ∧ (malsBackFold O operator rhs solver θ mk k st).sol.rowDims
          = st.sol.rowDims := by
  intro k
  induction k with
  | zero =>
    intro st hL
    have hfold : malsBackFold O operator rhs solver θ mk 0 st
        = malsBackwardStep O operator rhs solver θ mk st 0 := by
      simp only [malsBackFold]
      rfl
    have hp := malsBackwardStep_props O operator rhs solver θ mk st 0 (by omega)
    rw [hfold]
    refine ⟨?_, ?_, ?_, hp.2.2.2.2.1, hp.2.2.2.2.2⟩
    · intro j hj
      rcases Nat.le_one_iff_eq_zero_or_eq_one.mp hj with rfl | rfl
      · exact (hp.2.1 rfl).1
      · exact (hp.2.1 rfl).2
    · intro j hj
      exact hp.2.2.1 j (by omega) (by omega)
    · intro j hj
      exact hp.2.2.2.1 j (by omega)
  | succ k ih =>
    intro st hL
    rw [malsBackFold_succ]
    have hp := malsBackwardStep_props O operator rhs solver θ mk st (k + 1) (by omega)
    have hlen1 : k + 2
        ≤ (malsBackwardStep O operator rhs solver θ mk st (k + 1)).sol.cores.length := by
      rw [hp.2.2.2.2.1]
      omega
    have hIH := ih (malsBackwardStep O operator rhs solver θ mk st (k + 1)) hlen1
    refine ⟨?_, ?_, ?_, ?_, ?_⟩
    · intro j hj
      by_cases hjk : j ≤ k + 1
      · exact hIH.1 j hjk
      · have hj2 : j = k + 2 := by omega
        subst hj2
        obtain ⟨c, hc1, hc2⟩ := hp.1 (by omega)
        refine ⟨c, ?_, ?_⟩
        · rw [hIH.2.1 (k + 2) (by omega)]
          exact hc1
        · rw [hIH.2.2.1 (k + 2) (by omega), hIH.2.2.1 (k + 3) (by omega),
            hIH.2.2.2.2]
          exact hc2
    · intro j hj
      rw [hIH.2.1 j (by omega)]
      exact hp.2.2.1 j (by omega) (by omega)
    · intro j hj
      rw [hIH.2.2.1 j (by omega)]
      exact hp.2.2.2.1 j (by omega)
    · rw [hIH.2.2.2.1]
      exact hp.2.2.2.2.1
    · rw [hIH.2.2.2.2]
      exact hp.2.2.2.2.2

/-- C10: in the MALS backward half sweep, an update at pair i > 0 leaves
solution core i holding the raw micro-system solution - its shape is the
(N, 1) column shape of the micro right-hand side, not a 4-axis core -
while core i+1 is written back in valid 4-axis form; the raw core is
restored by the next step (or the i = 0 terminal branch), so after the
complete backward half sweep every core 0..order-1 is a 4-axis array
whose bond axes match the final ranks sequence. -/
theorem mals_backward_core_forms {α : Type} (O : Ops α) (operator rhs : TT α)
    (solver : String) (θ : ℚ) (mk : Option ℕ) :
    (∀ (st : SweepSt α) (i : ℕ), 0 < i → i + 1 < st.sol.cores.length →
      (solver = "solve" ∨ solver = "lu") →
      ((malsBackwardStep O operator rhs solver θ mk st i).sol.cores[i]?).map Core.shape
        = some (constructMicroRhsMals O i st.slr
            (constructStackRightRhs O (i + 1) st.srr rhs st.sol) rhs st.sol).shape
      ∧ (constructMicroRhsMals O i st.slr
          (constructStackRightRhs O (i + 1) st.srr rhs st.sol) rhs st.sol).shape
          = [st.sol.ranks.getD i 0 * rhs.rowDims.getD i 0 * rhs.rowDims.getD (i + 1) 0
              * st.sol.ranks.getD (i + 2) 0, 1]
      ∧ coreOK (malsBackwardStep O operator rhs solver θ mk st i).sol (i + 1))
    ∧ (∀ (st : SweepSt α), 2 ≤ operator.order →
        operator.order ≤ st.sol.cores.length →
        ∀ j, j ≤ operator.order - 1 →
          coreOK (malsBackwardSweep O operator rhs solver θ mk st).sol j) := by
  constructor
  · intro st i hi hlen hsl
    have hp := malsBackwardStep_props O operator rhs solver θ mk st i hlen
    refine ⟨?_, rfl, hp.1 hi⟩
    obtain ⟨mo, mr, hstep⟩ : ∃ mo mr,
        (malsBackwardStep O operator rhs solver θ mk st i).sol
          = updateCoreMals O i mo mr st.sol solver "backward" θ mk
          ∧ mr = constructMicroRhsMals O i st.slr
              (constructStackRightRhs O (i + 1) st.srr rhs st.sol) rhs st.sol :=
      ⟨_, _, rfl, rfl⟩
    rw [hstep.1, updMals_backward_core_raw O i mo mr st.sol solver θ mk (by omega)
      (by omega), ← hstep.2]
    rw [Option.map_some', malsC_shape O i mo mr st.sol solver hsl]
  · intro st hord hlen j hj
    have hsw : malsBackwardSweep O operator rhs solver θ mk st
        = malsBackFold O operator rhs solver θ mk (operator.order - 2) st := by
      rw [malsBackwardSweep, malsBackFold,
        show operator.order - 1 = operator.order - 2 + 1 from by omega]
    rw [hsw]
    exact (malsBackFold_ok O operator rhs solver θ mk (operator.order - 2) st
      (by omega)).1 j (by omega)

/-- C10 witness at a concrete order-3 system. -/
theorem mals_backward_core_forms_witness :
    ((malsBackwardStep DOps ttOp ttRhs "solve" 0 none stW 1).sol.cores[1]?).map Core.shape
      = some (constructMicroRhsMals DOps 1 stW.slr
          (constructStackRightRhs DOps 2 stW.srr ttRhs stW.sol) ttRhs stW.sol).shape
    ∧ coreOK ((malsBackwardSweep DOps ttOp ttRhs "solve" 0 none stW).sol) 2 := by
  have h := mals_backward_core_forms DOps ttOp ttRhs "solve" 0 none
  exact ⟨(h.1 stW 1 (by decide) (by decide) (Or.inl rfl)).1,
    h.2 stW (by decide) (by decide) 2 (by decide)⟩

/-- C9 witness at concrete inputs. -/
theorem als_ranks_nonincreasing_witness :
    (updateCoreAls DOps 0 moW mrW (sampleTT 2 2 2 3 1) "solve" "forward").ranks.getD 1 0
      = min ((sampleTT 2 2 2 3 1).ranks.getD 0 0 * (sampleTT 2 2 2 3 1).rowDims.getD 0 0)
          ((sampleTT 2 2 2 3 1).ranks.getD 1 0)
    ∧ (updateCoreAls DOps 1 moW mrW (sampleTT 2 2 2 3 1) "solve" "backward").ranks.getD 1 0
        = min ((sampleTT 2 2 2 3 1).ranks.getD 1 0)
            ((sampleTT 2 2 2 3 1).rowDims.getD 1 0 * (sampleTT 2 2 2 3 1).ranks.getD 2 0)
    ∧ (als DOps ttOp ttGs ttRhs 2 "solve").ranks.getD 1 0 ≤ ttGs.ranks.getD 1 0 := by
  have h := als_ranks_nonincreasing DOps
  exact ⟨h.1 0 moW mrW (sampleTT 2 2 2 3 1) "solve" (by decide),
    h.2.1 1 moW mrW (sampleTT 2 2 2 3 1) "solve" (by decide) (by decide),
    h.2.2.2 ttOp ttGs ttRhs 2 "solve" 1⟩

end ScikitTT
